import Mathlib

/-!
Verification of the momostack legal-citation linkgen pipeline.

This file gives a shallow embedding, in Lean 4, of the parts of the
repository exercised by the frozen claims: the overlap resolver and
paired-symbol extractor (`linkgen/helper.py`), the entity associator and
orphan pruning (`linkgen/resolver.py`), the tokenizer validation gates
(`linkgen/tokenizer.py`), the ranking and staged search of
`linkgen/searcher.py`, and the order-indexed `LookupDict`
(`hyperlink-recognition/.../structures.py`).

Python strings are modelled as `List Char` (Python indexes strings by
code point), Python `int` as `Int` (or `Nat` where only natural indices
are reachable), Python `set[str]` as `Finset String`, Python `dict` as
insertion-ordered association lists with last-write-wins keys, and
raising code as `Except String`.
-/

namespace Momostack

/-- Python `text[start:end]` on a code-point list (both bounds clamped,
empty when `start ≥ end`). -/
def pySlice (text : List Char) (start endp : Nat) : List Char :=
  (text.take endp).drop start

/-- Characters treated as whitespace.  Models Python `str.isspace` for the
ASCII whitespace range; the full-width space variants come from a resource
table (`AsciiMapping.json`) that is outside the embedded core. -/
def is_whitespace (c : Char) : Bool :=
  c = ' ' ∨ c = '\t' ∨ c = '\n' ∨ c = '\r'

/-- Python `str.strip()` (with the whitespace model above). -/
def pyStrip (text : List Char) : List Char :=
  (text.dropWhile is_whitespace).reverse.dropWhile is_whitespace |>.reverse

/-! ## Data model (`linkgen/models.py`, and the `Segment` span base type)

`helper.py` imports `Segment` from `linkgen.models`; the class itself is
absent from the sources, but the spec's data model defines it: a span
`(text, start, end)` with `end` exclusive, the base type for all
positional values.  `Token` in `models.py` has exactly this shape. -/

structure Segment where
  text : List Char
  start : Nat
  endPos : Nat
deriving DecidableEq, Repr

/-- `Token.overlaps_with` from `models.py`:
`self.start < other.end and self.end > other.start`. -/
def Segment.overlaps_with (a b : Segment) : Prop :=
  a.start < b.endPos ∧ a.endPos > b.start

instance (a b : Segment) : Decidable (a.overlaps_with b) :=
  inferInstanceAs (Decidable (a.start < b.endPos ∧ a.endPos > b.start))

/-- `seg.end - seg.start` as computed on Python ints. -/
def Segment.lenInt (s : Segment) : Int :=
  (s.endPos : Int) - (s.start : Int)

/-! ## `resolve_overlaps` (`linkgen/helper.py`, lines 352-447) -/

/-- The three overlap-resolution strategies of `resolve_overlaps`. -/
inductive OverlapStrategy where
  | longest
  | earliest
  | earliest_longest
deriving DecidableEq, Repr

/-- `sorted(iterable, key=lambda x: x.start)`: Python's `sorted` is a
stable sort by the key; `List.insertionSort` with `≤` on the key computes
the same list. -/
def sortByStart (l : List Segment) : List Segment :=
  l.insertionSort fun a b => a.start ≤ b.start

/-- `sorted(iterable, key=lambda x: (x.start, -x.end))` for the
`earliest_longest` strategy. -/
def sortByStartNegEnd (l : List Segment) : List Segment :=
  l.insertionSort fun a b =>
    a.start < b.start ∨ (a.start = b.start ∧ b.endPos ≤ a.endPos)

/-- `_resolve_overlaps_keep_longest` (`helper.py` lines 409-432), as the
loop over `segments[1:]` with loop state `(longest, group_end)`;
`group_end` is a Python int. -/
def keepLongestLoop (direct_only : Bool) :
    Segment → Int → List Segment → List Segment
  | longest, _, [] => [longest]
  | longest, group_end, seg :: rest =>
    if (seg.start : Int) < group_end then
      -- Segments overlap, keep the longer one
      let longest' := if longest.lenInt < seg.lenInt then seg else longest
      let group_end' :=
        if direct_only then (longest'.endPos : Int)
        else max group_end (seg.endPos : Int)
      keepLongestLoop direct_only longest' group_end' rest
    else
      -- No overlap, emit the current longest and start a new group
      longest :: keepLongestLoop direct_only seg (seg.endPos : Int) rest

/-- `_resolve_overlaps_keep_longest(segments, direct_only)` for a
non-empty `segments` list. -/
def _resolve_overlaps_keep_longest (segments : List Segment)
    (direct_only : Bool) : List Segment :=
  match segments with
  | [] => []
  | s :: rest => keepLongestLoop direct_only s (s.endPos : Int) rest

/-- `_resolve_overlaps_keep_earliest` (`helper.py` lines 435-447);
`prev_end` starts at the Python int `-1`. -/
def keepEarliestLoop (direct_only : Bool) :
    Int → List Segment → List Segment
  | _, [] => []
  | prev_end, segment :: rest =>
    if (segment.start : Int) ≥ prev_end then
      let prev_end' :=
        if direct_only then (segment.endPos : Int)
        else max (segment.endPos : Int) (segment.endPos : Int)
      segment :: keepEarliestLoop direct_only prev_end' rest
    else
      let prev_end' :=
        if direct_only then prev_end else max prev_end (segment.endPos : Int)
      keepEarliestLoop direct_only prev_end' rest

/-- `_resolve_overlaps_keep_earliest(segments, direct_only)`. -/
def _resolve_overlaps_keep_earliest (segments : List Segment)
    (direct_only : Bool) : List Segment :=
  keepEarliestLoop direct_only (-1) segments

/-- `resolve_overlaps(iterable, strategy, direct_only)`
(`helper.py` lines 352-406). -/
def resolve_overlaps (iterable : List Segment)
    (strategy : OverlapStrategy) (direct_only : Bool := false) :
    List Segment :=
  match strategy with
  | .longest =>
    match sortByStart iterable with
    | [] => []
    | segments => _resolve_overlaps_keep_longest segments direct_only
  | .earliest =>
    match sortByStart iterable with
    | [] => []
    | segments => _resolve_overlaps_keep_earliest segments direct_only
  | .earliest_longest =>
    match sortByStartNegEnd iterable with
    | [] => []
    | segments => _resolve_overlaps_keep_earliest segments direct_only

/-! ## `PairedSymbolExtractor` (`linkgen/helper.py`, lines 41-172)

The symbol pair is modelled as a pair of single characters: every
instantiation in the repository uses one-code-point symbols
(`(`/`)` and the CJK title brackets), and `_extract_all` &c. compute the
pair's end as `index + 1`, the position one past a one-character right
symbol. -/

inductive PairStrategy where
  | outermost
  | innermost
  | all
deriving DecidableEq, Repr

structure PairedSymbolExtractor where
  left : Char
  right : Char
  include_symbols : Bool
  strategy : PairStrategy
  allow_fallback_on_unclosed : Bool
deriving DecidableEq, Repr

/-- `self._symbol_pattern.finditer(text)`: all matches of the alternation
`left|right` in scan order, as `(start index, matched symbol)` pairs. -/
def findSymbols (left right : Char) : Nat → List Char → List (Nat × Char)
  | _, [] => []
  | i, c :: cs =>
    if c = left ∨ c = right then (i, c) :: findSymbols left right (i + 1) cs
    else findSymbols left right (i + 1) cs

/-- `PairedSymbolExtractor._make_value` (`helper.py` lines 165-172); the
symbols are single characters, so `len(self._left) = len(self._right) = 1`. -/
def PairedSymbolExtractor._make_value (e : PairedSymbolExtractor)
    (text : List Char) (start endp : Nat) : Segment :=
  if e.include_symbols then
    Segment.mk (pySlice text start endp) start endp
  else
    let inner_start := start + 1
    let inner_end := endp - 1
    Segment.mk (pySlice text inner_start inner_end) inner_start inner_end

/-- The scan loop of `_extract_all` (`helper.py` lines 84-97), over the
symbol occurrences, with the position stack. -/
def extractAllLoop (e : PairedSymbolExtractor) (text : List Char) :
    List (Nat × Char) → List (Nat × Char) → List Segment
  | _, [] => []
  | stack, (index, val) :: rest =>
    if val = e.left then
      extractAllLoop e text ((index, val) :: stack) rest
    else
      match stack with
      | [] => extractAllLoop e text [] rest
      | (left_index, v) :: stack' =>
        if v = e.left then
          e._make_value text left_index (index + 1) ::
            extractAllLoop e text stack' rest
        else
          extractAllLoop e text stack rest

/-- `PairedSymbolExtractor._extract_all`. -/
def PairedSymbolExtractor._extract_all (e : PairedSymbolExtractor)
    (text : List Char) : List Segment :=
  extractAllLoop e text [] (findSymbols e.left e.right 0 text)

/-- Python `defaultdict(list)` keyed by depth, for `_extract_outermost`'s
`pending` buffer: an association list whose entries appear in first-use
order. -/
def pendingAppend (pending : List (Nat × List Segment)) (depth : Nat)
    (item : Segment) : List (Nat × List Segment) :=
  if pending.any fun p => p.1 = depth then
    pending.map fun p => if p.1 = depth then (p.1, p.2 ++ [item]) else p
  else
    pending ++ [(depth, [item])]

/-- `pending.pop(depth, None)`: drop the entry for `depth` if present. -/
def pendingPop (pending : List (Nat × List Segment)) (depth : Nat) :
    List (Nat × List Segment) :=
  pending.filter fun p => p.1 ≠ depth

/-- `min(pending.keys())`. -/
def pendingMinKey (pending : List (Nat × List Segment)) : Nat :=
  match pending.map Prod.fst with
  | [] => 0
  | k :: ks => ks.foldl min k

/-- The scan loop of `_extract_outermost` (`helper.py` lines 99-129),
with state `(depth, stack, pending)`; after the loop, if closed inner
pairs are pending, an unmatched outer left remains (`depth > 0`) and the
fallback is allowed, the buffered pairs of the shallowest depth are
emitted. -/
def extractOutermostLoop (e : PairedSymbolExtractor) (text : List Char) :
    Nat → List (Nat × Char) → List (Nat × List Segment) →
    List (Nat × Char) → List Segment
  | depth, _stack, pending, [] =>
    if pending ≠ [] ∧ e.allow_fallback_on_unclosed ∧ depth > 0 then
      (pending.lookup (pendingMinKey pending)).getD []
    else []
  | depth, stack, pending, (index, val) :: rest =>
    if val = e.left then
      extractOutermostLoop e text (depth + 1) ((index, val) :: stack)
        pending rest
    else
      match stack with
      | [] => extractOutermostLoop e text depth [] pending rest
      | (left_index, v) :: stack' =>
        if v = e.left then
          let item := e._make_value text left_index (index + 1)
          if stack' = [] then
            item :: extractOutermostLoop e text (depth - 1) stack'
              pending rest
          else
            extractOutermostLoop e text (depth - 1) stack'
              (pendingPop (pendingAppend pending depth item) (depth + 1))
              rest
        else
          extractOutermostLoop e text depth stack pending rest

/-- `PairedSymbolExtractor._extract_outermost`. -/
def PairedSymbolExtractor._extract_outermost (e : PairedSymbolExtractor)
    (text : List Char) : List Segment :=
  extractOutermostLoop e text 0 [] [] (findSymbols e.left e.right 0 text)

/-- The scan loop of `_extract_innermost` (`helper.py` lines 131-154),
with state `(depth, max_depth_seen, stack)`. -/
def extractInnermostLoop (e : PairedSymbolExtractor) (text : List Char) :
    Nat → Nat → List (Nat × Char) → List (Nat × Char) → List Segment
  | _, _, _, [] => []
  | depth, max_depth_seen, stack, (index, val) :: rest =>
    if val = e.left then
      extractInnermostLoop e text (depth + 1)
        (max (depth + 1) max_depth_seen) ((index, val) :: stack) rest
    else
      match stack with
      | [] => extractInnermostLoop e text depth max_depth_seen [] rest
      | (left_index, v) :: stack' =>
        if v = e.left then
          let emitted :=
            if depth = max_depth_seen then
              [e._make_value text left_index (index + 1)]
            else []
          let depth' := depth - 1
          let max_depth_seen' := if depth' = 0 then 0 else max_depth_seen
          emitted ++ extractInnermostLoop e text depth' max_depth_seen'
            stack' rest
        else
          extractInnermostLoop e text depth max_depth_seen stack rest

/-- `PairedSymbolExtractor._extract_innermost`. -/
def PairedSymbolExtractor._extract_innermost (e : PairedSymbolExtractor)
    (text : List Char) : List Segment :=
  extractInnermostLoop e text 0 0 [] (findSymbols e.left e.right 0 text)

/-- `PairedSymbolExtractor.extract` dispatching on the configured
strategy (`_get_strategy_handler`, `helper.py` lines 156-163). -/
def PairedSymbolExtractor.extract (e : PairedSymbolExtractor)
    (text : List Char) : List Segment :=
  match e.strategy with
  | .innermost => e._extract_innermost text
  | .outermost => e._extract_outermost text
  | .all => e._extract_all text

/-! ### Claim-side notions for overlap resolution

A maximal overlapping cluster of a segment multiset is a connected
component of the `overlaps_with` graph on its members; the claim's
tie-break selects, within a cluster, the longest segment and among the
longest the earliest-starting one. -/

/-- `a` and `b` are linked by a chain of overlapping members of `l`. -/
def connectedIn (l : List Segment) (a b : Segment) : Prop :=
  Relation.ReflTransGen
    (fun x y => x ∈ l ∧ y ∈ l ∧ x.overlaps_with y) a b

/-- `s` beats `t` under the claim's tie-break: longer, or equally long
and starting no later. -/
def betterSeg (s t : Segment) : Prop :=
  t.lenInt < s.lenInt ∨ (t.lenInt = s.lenInt ∧ s.start ≤ t.start)

/-- `s` is the longest (ties to the earliest) segment of its maximal
overlapping cluster within `l`. -/
def bestOfCluster (l : List Segment) (s : Segment) : Prop :=
  ∀ t ∈ l, connectedIn l s t → betterSeg s t

/-! ## Entity model (`linkgen/models.py`, lines 15-93) -/

/-- `EntityType` (`models.py` lines 15-46). -/
inductive EntityType where
  | date
  | issue_no
  | promulgator
  | case_no
  | law_abbr
  | link
  | this_law
  | law_self
  | law_dynamic_abbr
  | law_title
  | law_article
deriving DecidableEq, Repr

/-- The static `depends_on` table of `EntityType`. -/
def EntityType.depends_on : EntityType → List EntityType
  | .this_law => [.law_title]
  | .law_self => [.law_title]
  | .law_dynamic_abbr => [.law_title]
  | .law_title => [.date, .issue_no, .promulgator]
  | .law_article => [.law_title, .law_dynamic_abbr, .law_abbr, .this_law, .law_self]
  | _ => []

/-- `Entity` (`models.py` lines 62-93): a `Token` span plus entity type,
owned attribute entities, an optional reference and an optional alias. -/
inductive Entity : Type where
  | mk (text : List Char) (start : Nat) (endPos : Nat)
      (entity_type : EntityType) (attrs : List Entity)
      (refers_to : Option Entity) (aliasText : Option (List Char)) : Entity

def Entity.text : Entity → List Char
  | .mk t _ _ _ _ _ _ => t

def Entity.start : Entity → Nat
  | .mk _ s _ _ _ _ _ => s

def Entity.endPos : Entity → Nat
  | .mk _ _ e _ _ _ _ => e

def Entity.entity_type : Entity → EntityType
  | .mk _ _ _ ty _ _ _ => ty

def Entity.attrs : Entity → List Entity
  | .mk _ _ _ _ a _ _ => a

def Entity.refers_to : Entity → Option Entity
  | .mk _ _ _ _ _ r _ => r

/-! ## `LookupDict` (`hyperlink-recognition/python/src/structures.py`,
lines 92-157, identically `recognition/structures.py` lines 15-87)

`linkgen/resolver.py` imports this class as `linkgen.structures.LookupDict`;
that module is absent from the sources, but the class itself ships in the
repository's hyperlink-recognition sources with the floor/ceiling
semantics embedded here.

The constructor models Python dict semantics (`{k: v for ...}`): one entry
per key, the last written value winning, then `sorted(data.items())` by
key.  `bisect_right`/`bisect_left` are Python's `bisect` on the sorted key
list: the insertion point, i.e. the number of keys `≤` (resp. `<`) the
probe. -/

/-- One `dict[k] = v` step: overwrite the value if the key exists,
else append the pair. -/
def pyDictUpdate {α β : Type} [DecidableEq α] (acc : List (α × β))
    (kv : α × β) : List (α × β) :=
  if acc.any fun p => p.1 = kv.1 then
    acc.map fun p => if p.1 = kv.1 then (p.1, kv.2) else p
  else
    acc ++ [kv]

/-- A Python dict built from a pair sequence: insertion order,
last-write-wins. -/
def pyDict {α β : Type} [DecidableEq α] (pairs : List (α × β)) :
    List (α × β) :=
  pairs.foldl pyDictUpdate []

/-- `bisect.bisect_right(keys, x)` for a sorted `keys` list. -/
def bisectRight {α : Type} [LinearOrder α] (keys : List α) (x : α) : Nat :=
  (keys.takeWhile fun k => decide (k ≤ x)).length

/-- `bisect.bisect_left(keys, x)` for a sorted `keys` list. -/
def bisectLeft {α : Type} [LinearOrder α] (keys : List α) (x : α) : Nat :=
  (keys.takeWhile fun k => decide (k < x)).length

/-- `LookupDict`: entries sorted ascending by key, one entry per key. -/
structure LookupDict (α β : Type) where
  entries : List (α × β)
deriving Repr

/-- `LookupDict.__init__`: dict the pairs, then sort items by key. -/
def LookupDict.ofDict {α β : Type} [LinearOrder α] [DecidableEq α]
    (pairs : List (α × β)) : LookupDict α β :=
  ⟨(pyDict pairs).insertionSort fun a b => a.1 ≤ b.1⟩

/-- `self._keys`. -/
def LookupDict.keys {α β : Type} (d : LookupDict α β) : List α :=
  d.entries.map Prod.fst

/-- `LookupDict.floor(key)`: `pos = bisect_right(self._keys, key)`; `None`
if `pos == 0`, else the value at `self._keys[pos - 1]` (with one entry per
sorted key, `self._data[self._keys[i]]` is the value of `entries[i]`). -/
def LookupDict.floor {α β : Type} [LinearOrder α] (d : LookupDict α β)
    (key : α) : Option β :=
  let pos := bisectRight d.keys key
  if pos = 0 then none else (d.entries[pos - 1]?).map Prod.snd

/-- `LookupDict.ceiling(key)`: `pos = bisect_left(self._keys, key)`;
`None` if `pos == len(self._keys)`, else the value at `self._keys[pos]`. -/
def LookupDict.ceiling {α β : Type} [LinearOrder α] (d : LookupDict α β)
    (key : α) : Option β :=
  let pos := bisectLeft d.keys key
  if pos = d.keys.length then none else (d.entries[pos]?).map Prod.snd

/-! ## Resolver (`linkgen/resolver.py`) -/

def _SENTENCE_ENDING : List Char := ['?', '!', '.', '。', '？', '！']

def _LEFT_BRACKETS : List Char := ['(', '（']

/-- `_without_sentence_ending(text, start, end)` (`resolver.py` lines
183-187): no sentence-ending character occurs in `text[start:end]`. -/
def _without_sentence_ending (text : List Char) (start endp : Nat) : Bool :=
  _SENTENCE_ENDING.all fun x => !((pySlice text start endp).contains x)

/-- `_skip_leading_whitespace` (`resolver.py` lines 227-233): the while
loop advances `start` past the leading whitespace of `text[start:end]`. -/
def _skip_leading_whitespace (text : List Char) (start endp : Nat) : Nat :=
  start + ((pySlice text start endp).takeWhile is_whitespace).length

/-- `text.find(sub, start, end)` for a single-character needle, as an
optional index. -/
def findCharIn (text : List Char) (c : Char) (start endp : Nat) :
    Option Nat :=
  ((pySlice text start endp).indexOf? c).map (· + start)

/-- `_skip_leading_element_tag` (`resolver.py` lines 236-244).  The
source reads `text[start]` unconditionally; on the reachable inputs
`start < end ≤ len(text)` after the whitespace skip, so the out-of-range
default (a character that is not `<`) is never consulted. -/
def _skip_leading_element_tag (text : List Char) (start endp : Nat) : Nat :=
  if text.getD start '\x00' = '<' then
    match findCharIn text '>' start endp with
    | some nearest_close =>
      if nearest_close > start then nearest_close + 1 else start
    | none => start
  else start

/-- The while loop of `_skip_whitespace_and_tags` (`resolver.py` lines
209-224).  The skip helpers never move the index backwards, so the
source's `if next_idx == idx: break` is the `next_idx ≤ idx` exit here. -/
def _skip_ws_tags_loop (text : List Char) (endp idx : Nat) : Nat :=
  if _h : idx < endp then
    let next_idx :=
      _skip_leading_element_tag text
        (_skip_leading_whitespace text idx endp) endp
    if _h2 : next_idx ≤ idx then idx
    else _skip_ws_tags_loop text endp next_idx
  else idx
termination_by endp - idx
decreasing_by omega

/-- `_skip_whitespace_and_tags(text, start, end)`. -/
def _skip_whitespace_and_tags (text : List Char) (start endp : Nat) : Nat :=
  _skip_ws_tags_loop text endp start

/-- `_startswith_single_left_bracket` (`resolver.py` lines 190-206). -/
def _startswith_single_left_bracket (text : List Char)
    (start endp : Nat) : Bool :=
  let idx := _skip_whitespace_and_tags text start endp
  if idx ≥ endp then false
  else if !(_LEFT_BRACKETS.contains (text.getD idx '\x00')) then false
  else !(_LEFT_BRACKETS.any fun x => (pySlice text (idx + 1) endp).contains x)

def forward_lookup_types : List EntityType := [.issue_no, .date]

/-- The body of `_associate_attributes`'s per-attribute loop
(`resolver.py` lines 132-148): a forward floor lookup gated by the
sentence-ending and single-left-bracket checks (its success consumes the
attribute), otherwise a backward ceiling lookup gated by the
sentence-ending check alone.  The appended `(entity, attr)` pair is
returned instead of mutating `entity.attrs`. -/
def assocAttrOne (text : List Char)
    (end_index_lookup start_index_lookup : LookupDict Int Entity)
    (attr : Entity) : Option (Entity × Entity) :=
  let fwd : Option (Entity × Entity) :=
    if forward_lookup_types.contains attr.entity_type then
      match end_index_lookup.floor ((attr.start : Int) - 1) with
      | some entity =>
        if _without_sentence_ending text entity.endPos attr.start
            ∧ _startswith_single_left_bracket text entity.endPos attr.start
        then some (entity, attr)
        else none
      | none => none
    else none
  match fwd with
  | some p => some p
  | none =>
    match start_index_lookup.ceiling ((attr.endPos : Int)) with
    | some entity =>
      if _without_sentence_ending text attr.endPos entity.start then
        some (entity, attr)
      else none
    | none => none

/-- `_associate_attributes(text, entities, attrs)` (`resolver.py` lines
122-148), as the list of attachments it performs: the two lookup
structures are built once from the entity group (`{x.end: x}`,
`{x.start: x}`, probed with Python ints), then each attribute attaches to
at most one entity. -/
def _associate_attributes (text : List Char) (entities : List Entity)
    (attrs : List Entity) : List (Entity × Entity) :=
  let end_index_lookup :=
    LookupDict.ofDict (entities.map fun x => ((x.endPos : Int), x))
  let start_index_lookup :=
    LookupDict.ofDict (entities.map fun x => ((x.start : Int), x))
  attrs.filterMap (assocAttrOne text end_index_lookup start_index_lookup)

def remaining_types : List EntityType :=
  [.case_no, .law_abbr, .law_self, .law_title]

/-- `_remove_orphan_entities` (`resolver.py` lines 65-76): keep an entity
iff its `refers_to` is set (a set reference is always a truthy object) or
its type is in the unconditionally-surviving set. -/
def _remove_orphan_entities (entities : List Entity) : List Entity :=
  entities.filter fun x =>
    x.refers_to.isSome || remaining_types.contains x.entity_type

/-! ## Tokenizer (`linkgen/tokenizer.py`)

`TokenSpan` (`models.py` lines 96-128).  `Token` has the same shape as
the span base type. -/

inductive TokenSpan : Type where
  | mk (core : Segment) (normalized_text : List Char) (nested : Bool)
      (prefixes suffixes : List Segment)
      (outer inner : Option TokenSpan) : TokenSpan

def TokenSpan.core : TokenSpan → Segment
  | .mk c _ _ _ _ _ _ => c

def TokenSpan.normalized_text : TokenSpan → List Char
  | .mk _ n _ _ _ _ _ => n

def TokenSpan.nested : TokenSpan → Bool
  | .mk _ _ n _ _ _ _ => n

def TokenSpan.prefixes : TokenSpan → List Segment
  | .mk _ _ _ p _ _ _ => p

def TokenSpan.suffixes : TokenSpan → List Segment
  | .mk _ _ _ _ s _ _ => s

def TokenSpan.outer : TokenSpan → Option TokenSpan
  | .mk _ _ _ _ _ o _ => o

def TokenSpan.inner : TokenSpan → Option TokenSpan
  | .mk _ _ _ _ _ _ i => i

/-- `TokenSpan.text_prefixes`. -/
def TokenSpan.text_prefixes (ts : TokenSpan) : List String :=
  ts.prefixes.map fun x => String.mk x.text

/-- `TokenSpan.text_suffixes`. -/
def TokenSpan.text_suffixes (ts : TokenSpan) : List String :=
  ts.suffixes.map fun x => String.mk x.text

/-- `TokenSpan.core_term`. -/
def TokenSpan.core_term (ts : TokenSpan) : String :=
  String.mk ts.core.text

/-- `LawTitleTokenizer` (`tokenizer.py` lines 55-298).  Text
normalization (`_normalize_text`: HTML-entity unescaping, ASCII mapping,
whitespace removal) and the post-normalization prefix/suffix peeling
(`_extract_token_span`) are driven by resource tables and compiled
pattern tables from the configuration collaborator, which the spec keeps
outside the core; they are abstracted as the object's behavior here.  The
validation gate runs before either of them. -/
structure LawTitleTokenizer where
  normalize_text : List Char → List Char
  extract_token_span : List Char → TokenSpan

/-- `LawTitleTokenizer._validate_input` (`tokenizer.py` lines 133-144):
`if not text or not text.strip(): raise ValueError(...)`. -/
def _validate_input (text : List Char) : Except String Unit :=
  if text = [] ∨ pyStrip text = [] then
    .error "Input text cannot be empty"
  else .ok ()

/-- `LawTitleTokenizer.tokenize` (`tokenizer.py` lines 112-131). -/
def LawTitleTokenizer.tokenize (t : LawTitleTokenizer) (text : List Char) :
    Except String TokenSpan :=
  match _validate_input text with
  | .error e => .error e
  | .ok _ => .ok (t.extract_token_span (t.normalize_text text))

/-- `NestedLawTitleTokenizer` (`tokenizer.py` lines 301-458): it
overrides `_extract_token_span` (nested-title detection and merging) and
inherits `tokenize` and `_validate_input` unchanged. -/
structure NestedLawTitleTokenizer where
  normalize_text : List Char → List Char
  extract_token_span : List Char → TokenSpan

/-- The inherited `tokenize` on `NestedLawTitleTokenizer`. -/
def NestedLawTitleTokenizer.tokenize (t : NestedLawTitleTokenizer)
    (text : List Char) : Except String TokenSpan :=
  match _validate_input text with
  | .error e => .error e
  | .ok _ => .ok (t.extract_token_span (t.normalize_text text))

/-- `NoOpTokenizer` (`tokenizer.py` lines 461-491); its normalization
chain (`remove_all_whitespaces(to_ascii(unescape_html_entities(text)))`)
is resource-table driven and abstracted as a field. -/
structure NoOpTokenizer where
  normalize_text : List Char → List Char

/-- `NoOpTokenizer.tokenize` (`tokenizer.py` lines 479-491): the same
emptiness guard, then the whole (un-normalized) text as a single core
token spanning the normalized length. -/
def NoOpTokenizer.tokenize (t : NoOpTokenizer) (text : List Char) :
    Except String TokenSpan :=
  if text = [] ∨ pyStrip text = [] then
    .error "Input text cannot be empty"
  else
    let normalized_text := t.normalize_text text
    .ok (TokenSpan.mk (Segment.mk text 0 normalized_text.length)
      normalized_text false [] [] none none)

/-! ## `KeywordExtractor` construction (`linkgen/helper.py`, lines
175-232) -/

structure KeywordExtractor where
  ignore_overlaps : Bool
  automaton_words : List String
  max_keyword_length : Nat
deriving DecidableEq, Repr

/-- `KeywordExtractor.__init__` with `_build_automaton` inlined
(`helper.py` lines 192-199 and 223-232): each keyword is added to the
automaton (`add_word` ignores an empty key and the trie holds one node
per distinct word); an automaton left empty raises
`ValueError("Failed to build automaton: empty keyword list.")` at build
time, before `make_automaton` and before the longest-keyword length
(`len(max(keys, key=len))`) is taken. -/
def KeywordExtractor.init (keywords : List String)
    (ignore_overlaps : Bool := false) : Except String KeywordExtractor :=
  let words := (keywords.filter fun w => w ≠ "").dedup
  if words = [] then
    .error "Failed to build automaton: empty keyword list."
  else
    .ok { ignore_overlaps := ignore_overlaps,
          automaton_words := words,
          max_keyword_length := words.foldl (fun m w => max m w.length) 0 }

/-! ## Document metadata and ranking (`linkgen/models.py` lines 131-150,
`linkgen/searcher.py`) -/

structure DocMeta where
  doc_id : String
  doc_type : String
  doc_url : String
  title : String
  core_term : String
  status : String
  created_at : Int
  updated_at : Int
  release_date : Int
  version : String
  version_timestamp : Int
  is_english : Bool := false
  promulgators : List String := []
  effective_status : Option String := none
  effective_scope : Option String := none
  effective_date : Option Int := none
  max_article_num : Option Int := none
  min_article_num : Option Int := none
deriving DecidableEq, Repr

/-- Round-half-to-even to an integer, as Python `round` on the exact
value. -/
def round_half_even (q : ℚ) : ℤ :=
  let f := ⌊q⌋
  let r := q - (f : ℚ)
  if r < 1 / 2 then f
  else if 1 / 2 < r then f + 1
  else if Even f then f else f + 1

/-- Python `round(value, 2)`, modelled on the exact rational value. -/
def round2 (q : ℚ) : ℚ :=
  ((round_half_even (q * 100) : ℚ)) / 100

/-- `SearchBestResult` (`searcher.py` lines 48-65); `matched_attributes`
is never written on the embedded paths and is omitted. -/
structure SearchBestResult where
  confidence_score : ℚ
  doc_meta : Option DocMeta
  search_metadata : List (String × Int) := []
deriving DecidableEq, Repr

/-- The sort key of `LawTitleSearcher.search_best` (`searcher.py` lines
320-326): `(x.doc_type == "Legislation",
x.effective_scope == self._COUNTRY_SCOPE, -x.release_date)`. -/
def searchSortKey (country_scope : String) (x : DocMeta) :
    Bool × Bool × Int :=
  (x.doc_type == "Legislation", x.effective_scope == some country_scope,
    -x.release_date)

/-- Python ascending comparison of the key tuples (`False < True` on
booleans, lexicographic on tuples). -/
def pyKeyLe (a b : Bool × Bool × Int) : Prop :=
  a.1 < b.1 ∨ (a.1 = b.1 ∧
    (a.2.1 < b.2.1 ∨ (a.2.1 = b.2.1 ∧ a.2.2 ≤ b.2.2)))

instance : DecidableRel pyKeyLe := fun a b =>
  inferInstanceAs (Decidable (a.1 < b.1 ∨ (a.1 = b.1 ∧
    (a.2.1 < b.2.1 ∨ (a.2.1 = b.2.1 ∧ a.2.2 ≤ b.2.2)))))

/-- The searcher configuration (`LawTitleSearcher` class attributes read
from the configuration collaborator, `searcher.py` lines 276-281). -/
structure LawTitleSearcher where
  promulgator_mapping : List (String × String)
  country_scope : String
  about_chinese : String
  common_prefixes : List String

/-- `list.sort(key=...)`: Python's stable ascending sort by key;
`List.insertionSort` under the key comparison computes the same list. -/
def pySortByKey (country_scope : String) (l : List DocMeta) :
    List DocMeta :=
  l.insertionSort fun a b =>
    pyKeyLe (searchSortKey country_scope a) (searchSortKey country_scope b)

/-- `LawTitleSearcher.search_best` (`searcher.py` lines 307-334) after
`self._search`.  The `_search` pipeline queries the external document
store (spec §6), so its result `doc_meta_list` is this function's input:
the current document is filtered out, an empty survivor list yields
`(0.0, None)`, otherwise the survivors are sorted by the key above and
the result is `(round(1.0 / len, 2), sorted[0], {"total_matches": len})`. -/
def LawTitleSearcher.search_best (s : LawTitleSearcher)
    (metadata : DocMeta) (doc_meta_list : List DocMeta) :
    SearchBestResult :=
  let filtered := doc_meta_list.filter fun x => x.doc_id ≠ metadata.doc_id
  if filtered = [] then
    { confidence_score := 0, doc_meta := none }
  else
    let sorted := pySortByKey s.country_scope filtered
    { confidence_score := round2 (1 / (filtered.length : ℚ)),
      doc_meta := sorted.head?,
      search_metadata := [("total_matches", (filtered.length : Int))] }

/-! ## `MultiDimensionalInvertedIndex` (`linkgen/searcher.py`, lines
108-265) and the staged prefix search (lines 403-441) -/

/-- `IndexKey = str | int | bool | float` (`searcher.py` line 118);
float keys are never written or probed in the sources and are omitted. -/
inductive IndexKey where
  | s (v : String)
  | i (v : Int)
  | b (v : Bool)
deriving DecidableEq, Repr

/-- Python `str(x)` on an index key. -/
def IndexKey.pyStr : IndexKey → String
  | .s v => v
  | .i v => toString v
  | .b v => if v then "True" else "False"

/-- `_convert_to_fullname(keys)` (`searcher.py` lines 259-260):
`[promulgator_mapping.get(str(x), str(x)) for x in keys]`. -/
def convertToFullname (promulgator_mapping : List (String × String))
    (keys : List IndexKey) : List String :=
  keys.map fun k =>
    (promulgator_mapping.lookup k.pyStr).getD k.pyStr

structure MultiDimensionalInvertedIndex where
  document_by_doc_id : List (String × DocMeta) := []
  inverted_indexes : List (String × List (IndexKey × Finset String)) := []
  promulgator_mapping : List (String × String)

/-- The indexes whose keys go through the promulgator alias map. -/
def _convert_to_fullname_indexes : List String :=
  ["prefix_index", "promulgator_index"]

/-- `MultiDimensionalInvertedIndex.search_by_index` (`searcher.py` lines
141-183): empty key list or missing/empty index yields the empty set;
alias-mapped indexes convert their keys first; then a union or an
intersection over the per-key posting sets (the source's early exit on an
empty running intersection does not change the value). -/
def MultiDimensionalInvertedIndex.search_by_index
    (idx : MultiDimensionalInvertedIndex) (index_name : String)
    (keys : List IndexKey) (union : Bool := false) : Finset String :=
  match idx.inverted_indexes.lookup index_name with
  | none => ∅
  | some index =>
    if keys = [] ∨ index = [] then ∅
    else
      let keys :=
        if index_name ∈ _convert_to_fullname_indexes then
          (convertToFullname idx.promulgator_mapping keys).map IndexKey.s
        else keys
      if union then
        keys.foldl (fun r k => r ∪ (index.lookup k).getD ∅) ∅
      else
        match keys with
        | [] => ∅
        | k0 :: krest =>
          krest.foldl (fun r k => r ∩ (index.lookup k).getD ∅)
            ((index.lookup k0).getD ∅)

/-- `index[key].add(value)` over a `defaultdict(set)`, for each key. -/
def updateIndexKeys (index : List (IndexKey × Finset String))
    (keys : List IndexKey) (value : String) :
    List (IndexKey × Finset String) :=
  keys.foldl (fun ind key =>
    if ind.any fun p => p.1 = key then
      ind.map fun p => if p.1 = key then (p.1, insert value p.2) else p
    else ind ++ [(key, {value})]) index

/-- `_update_inverted_index` (`searcher.py` lines 245-257). -/
def MultiDimensionalInvertedIndex._update_inverted_index
    (idx : MultiDimensionalInvertedIndex) (index_name : String)
    (keys : List IndexKey) (value : String) :
    MultiDimensionalInvertedIndex :=
  let index := (idx.inverted_indexes.lookup index_name).getD []
  let index' := updateIndexKeys index keys value
  { idx with
    inverted_indexes :=
      if idx.inverted_indexes.any fun p => p.1 = index_name then
        idx.inverted_indexes.map fun p =>
          if p.1 = index_name then (p.1, index') else p
      else idx.inverted_indexes ++ [(index_name, index')] }

/-- Modelled from the spec: `text_util.unpack_date(epoch_seconds)` is
called by `MultiDimensionalInvertedIndex._unpack_date` (`searcher.py`
lines 262-265) but is absent from the sources under `src/`; the spec
records only that the date index carries year/month/day granularity keys.
Epoch seconds are converted to the UTC Gregorian civil date
`(year, month, day)`. -/
def unpack_date (epoch_seconds : Int) : Int × Int × Int :=
  let days := Int.fdiv epoch_seconds 86400
  let z := days + 719468
  let era := Int.fdiv z 146097
  let doe := z - era * 146097
  let yoe :=
    Int.fdiv (doe - Int.fdiv doe 1460 + Int.fdiv doe 36524
      - Int.fdiv doe 146096) 365
  let y := yoe + era * 400
  let doy := doe - (365 * yoe + Int.fdiv yoe 4 - Int.fdiv yoe 100)
  let mp := Int.fdiv (5 * doy + 2) 153
  let d := doy - Int.fdiv (153 * mp + 2) 5 + 1
  let m := mp + (if mp < 10 then 3 else -9)
  (y + (if m ≤ 2 then 1 else 0), m, d)

/-- Python `f"{n:02d}"` for the month/day components. -/
def pad2 (n : Int) : String :=
  if 0 ≤ n ∧ n < 10 then "0" ++ toString n else toString n

/-- `MultiDimensionalInvertedIndex._unpack_date`: the three date keys
`f"{year}{month:02d}{day:02d}"`, `f"{year}{month:02d}"`, `f"{year}"`. -/
def _unpack_date_keys (epoch_seconds : Int) : List IndexKey :=
  let ymd := unpack_date epoch_seconds
  [.s (toString ymd.1 ++ pad2 ymd.2.1 ++ pad2 ymd.2.2),
   .s (toString ymd.1 ++ pad2 ymd.2.1),
   .s (toString ymd.1)]

/-- `MultiDimensionalInvertedIndex.add_tokenized_document`
(`searcher.py` lines 197-243); the `try`/`except` wrapper only logs and
re-raises.  `scope_index` is added only for a truthy (present, non-empty)
`effective_scope`; `empty_prefix_index` only when the token span has no
prefixes; `inner_empty_prefix_index` only when it has an inner span. -/
def MultiDimensionalInvertedIndex.add_tokenized_document
    (idx : MultiDimensionalInvertedIndex) (doc_meta : DocMeta)
    (token_span : TokenSpan) : MultiDimensionalInvertedIndex :=
  let idx :=
    { idx with
      document_by_doc_id :=
        pyDictUpdate idx.document_by_doc_id (doc_meta.doc_id, doc_meta) }
  let date_index_keys :=
    _unpack_date_keys doc_meta.release_date ++
      (match doc_meta.effective_date with
       | some d => _unpack_date_keys d
       | none => [])
  let keys_by_index_name : List (String × List IndexKey) :=
    [("date_index", date_index_keys),
     ("version_index", [.s doc_meta.version]),
     ("suffix_index", token_span.text_suffixes.map .s),
     ("prefix_index",
       (convertToFullname idx.promulgator_mapping
         (token_span.text_prefixes.map .s)).map .s),
     ("promulgator_index",
       (convertToFullname idx.promulgator_mapping
         (doc_meta.promulgators.map .s)).map .s)]
    ++ (match doc_meta.effective_scope with
        | some scope =>
          if scope ≠ "" then [("scope_index", [.s scope])] else []
        | none => [])
    ++ (if token_span.prefixes = [] then
          [("empty_prefix_index", [.s token_span.core_term])]
        else [])
    ++ (match token_span.inner with
        | some inner => [("inner_empty_prefix_index", [.s inner.core_term])]
        | none => [])
  keys_by_index_name.foldl
    (fun acc p =>
      if p.2 ≠ [] then acc._update_inverted_index p.1 p.2 doc_meta.doc_id
      else acc)
    idx

/-- `LawTitleSearcher._search_by_prefixes` (`searcher.py` lines 403-441).
Step 1: explicit prefixes intersect the prefix index.  Step 2 (no
prefixes): union of the empty-prefix entry for the core term, the
common-prefix union lookup, and — when the query attributes carry a
non-empty promulgator set — the promulgator intersection lookup.  Step 3
(still empty): country-scope documents narrowed to the
nested-inner-empty or "about"-prefixed set. -/
def LawTitleSearcher._search_by_prefixes (s : LawTitleSearcher)
    (token_span : TokenSpan)
    (attributes : List (EntityType × Finset String))
    (index : MultiDimensionalInvertedIndex) : Finset String :=
  if token_span.prefixes ≠ [] then
    index.search_by_index "prefix_index" (token_span.text_prefixes.map .s)
  else
    let core_term := token_span.core_term
    let base :=
      index.search_by_index "empty_prefix_index" [.s core_term] ∪
        index.search_by_index "prefix_index" (s.common_prefixes.map .s) true
    let candidates :=
      match attributes.lookup .promulgator with
      | some promulgators =>
        if promulgators ≠ ∅ then
          -- Python iterates the set in arbitrary order; the intersection
          -- lookup's value does not depend on the enumeration order.
          base ∪ index.search_by_index "promulgator_index"
            ((promulgators.sort (· ≤ ·)).map .s)
        else base
      | none => base
    if candidates ≠ ∅ then candidates
    else
      let countryed :=
        index.search_by_index "scope_index" [.s s.country_scope]
      if countryed = ∅ then countryed
      else
        let nested_candidates :=
          index.search_by_index "inner_empty_prefix_index" [.b true]
        let about_prefixes :=
          index.search_by_index "prefix_index" [.s s.about_chinese]
        countryed ∩ (nested_candidates ∪ about_prefixes)

/-! ## Concrete values used by witness and counterexample statements -/

/-- A `DocMeta` with the given identity, type, scope and release date
(unused fields defaulted). -/
def mkDocMeta (id ty : String) (scope : Option String) (rd : Int) :
    DocMeta :=
  { doc_id := id, doc_type := ty, doc_url := "", title := "",
    core_term := "", status := "1", created_at := 0, updated_at := 0,
    release_date := rd, version := "", version_timestamp := 0,
    effective_scope := scope }

def exC1searcher : LawTitleSearcher := ⟨[], "全国", "关于", []⟩

def exC1me : DocMeta := mkDocMeta "me" "Legislation" (some "全国") 100

def exC1leg : DocMeta := mkDocMeta "leg" "Legislation" (some "全国") 50

def exC1oth : DocMeta :=
  mkDocMeta "oth" "Practice guidelines" (some "全国") 50

def exC2searcher : LawTitleSearcher := ⟨[], "全国", "关于", []⟩

def exC2me : DocMeta := mkDocMeta "m2" "Legislation" (some "全国") 90

def exC2a : DocMeta := mkDocMeta "a2" "Legislation" (some "全国") 40

def exC2b : DocMeta := mkDocMeta "b2" "Legislation" (some "全国") 60

/-- A trivial token span (for plugging abstracted tokenizer behavior). -/
def exSpanTrivial : TokenSpan :=
  TokenSpan.mk (Segment.mk [] 0 0) [] false [] [] none none

def exC8flat : LawTitleTokenizer := ⟨id, fun _ => exSpanTrivial⟩

def exC8nested : NestedLawTitleTokenizer := ⟨id, fun _ => exSpanTrivial⟩

def exC8noop : NoOpTokenizer := ⟨id⟩

def exC10pairs : List (Int × String) := [(3, "c"), (1, "a"), (4, "d"), (2, "b")]

def exC5text : List Char := "ab.cd".toList

def exC5entity : Entity := Entity.mk "ab".toList 0 2 .law_title [] none none

def exC5attr : Entity := Entity.mk "cd".toList 3 5 .date [] none none

/-- Claim side of C9: every direct intersection lookup on the prefix
index — whatever its (possibly non-empty) key set — is empty on this
index. -/
def prefixLookupsAllEmpty (idx : MultiDimensionalInvertedIndex) : Prop :=
  ∀ keys : List IndexKey, idx.search_by_index "prefix_index" keys = ∅

def exC9span : TokenSpan :=
  TokenSpan.mk (Segment.mk "民法".toList 0 2) "民法".toList false [] []
    none none

def exC9doc : DocMeta := mkDocMeta "A" "Legislation" (some "全国") 0

def exC9searcher : LawTitleSearcher :=
  ⟨[], "全国", "关于", ["中华人民共和国"]⟩

def exC9idx : MultiDimensionalInvertedIndex :=
  MultiDimensionalInvertedIndex.add_tokenized_document
    { promulgator_mapping := [] } exC9doc exC9span

/-! # Theorems -/

/-- C4: on `"((((deep))))"` with the pair `(`,`)` and
`include_symbols=False`, the *all* strategy yields exactly the four spans
`deep`, `(deep)`, `((deep))`, `(((deep)))` in innermost-first order, the
*outermost* strategy exactly `(((deep)))`, and the *innermost* strategy
exactly `deep`. -/
theorem C4_paired_symbol_extractor_deep :
    PairedSymbolExtractor.extract
        ⟨'(', ')', false, .all, false⟩ "((((deep))))".toList
      = [Segment.mk "deep".toList 4 8, Segment.mk "(deep)".toList 3 9,
         Segment.mk "((deep))".toList 2 10,
         Segment.mk "(((deep)))".toList 1 11] ∧
    PairedSymbolExtractor.extract
        ⟨'(', ')', false, .outermost, false⟩ "((((deep))))".toList
      = [Segment.mk "(((deep)))".toList 1 11] ∧
    PairedSymbolExtractor.extract
        ⟨'(', ')', false, .innermost, false⟩ "((((deep))))".toList
      = [Segment.mk "deep".toList 4 8] := by
  refine ⟨?_, ?_, ?_⟩ <;> rfl

/-- C7: constructing a `KeywordExtractor` from an empty keyword
collection fails at build time with the stable message, for every value
of `ignore_overlaps`; it never yields an extractor. -/
theorem C7_empty_keywords_raise (ignore_overlaps : Bool) :
    KeywordExtractor.init [] ignore_overlaps
      = .error "Failed to build automaton: empty keyword list." := by
  rfl

/-- `str.strip()` of an all-whitespace string is empty. -/
lemma pyStrip_eq_nil_of_all_whitespace {text : List Char}
    (h : ∀ c ∈ text, is_whitespace c) : pyStrip text = [] := by
  unfold pyStrip
  have h1 : text.dropWhile is_whitespace = [] :=
    List.dropWhile_eq_nil_iff.mpr h
  simp [h1]

/-- C8: tokenizing an empty or whitespace-only string raises the
validation error on all three tokenizers, whatever their configured
normalization and extraction behavior; no `TokenSpan` is produced. -/
theorem C8_tokenize_rejects_blank (t1 : LawTitleTokenizer)
    (t2 : NestedLawTitleTokenizer) (t0 : NoOpTokenizer)
    (text : List Char) (hblank : ∀ c ∈ text, is_whitespace c) :
    t1.tokenize text = .error "Input text cannot be empty" ∧
    t2.tokenize text = .error "Input text cannot be empty" ∧
    t0.tokenize text = .error "Input text cannot be empty" := by
  have hs : text = [] ∨ pyStrip text = [] :=
    Or.inr (pyStrip_eq_nil_of_all_whitespace hblank)
  refine ⟨?_, ?_, ?_⟩ <;>
    simp [LawTitleTokenizer.tokenize, NestedLawTitleTokenizer.tokenize,
      NoOpTokenizer.tokenize, _validate_input, hs]

/-- Witness for C8 at the one-space input. -/
theorem C8_tokenize_rejects_blank_witness :
    exC8flat.tokenize [' '] = .error "Input text cannot be empty" ∧
    exC8nested.tokenize [' '] = .error "Input text cannot be empty" ∧
    exC8noop.tokenize [' '] = .error "Input text cannot be empty" :=
  C8_tokenize_rejects_blank exC8flat exC8nested exC8noop [' ']
    (by decide)

/-- C6: orphan pruning keeps exactly the entities that either received a
reference or whose type is in the unconditional-survivor set
{CASE_NO, LAW_ABBR, LAW_SELF, LAW_TITLE}; equivalently, it drops exactly
the entities whose type requires a reference but whose `refers_to` is
unset. -/
theorem C6_orphan_pruning (entities : List Entity) (x : Entity) :
    x ∈ _remove_orphan_entities entities ↔
      x ∈ entities ∧
        (x.refers_to ≠ none ∨ x.entity_type ∈ remaining_types) := by
  simp [_remove_orphan_entities, List.mem_filter,
    Option.isSome_iff_ne_none, List.elem_iff]

/-- C1: the sort key of `search_best` orders ascending on
`doc_type == "Legislation"` and `effective_scope == country`, so `False`
(non-Legislation, non-country) sorts *first*, inverting the order stated
by the claim, the spec, and the source's own comment ("Legislation
first", "country scope first").  At two surviving candidates that differ
only in `doc_type`, the non-Legislation document is ranked first and
returned. -/
theorem C1_ranking_puts_non_legislation_first :
    exC1leg.doc_type = "Legislation" ∧
    exC1oth.doc_type ≠ "Legislation" ∧
    exC1leg.doc_id ≠ exC1me.doc_id ∧
    exC1oth.doc_id ≠ exC1me.doc_id ∧
    exC1leg.effective_scope = exC1oth.effective_scope ∧
    exC1leg.release_date = exC1oth.release_date ∧
    pySortByKey exC1searcher.country_scope [exC1leg, exC1oth]
      = [exC1oth, exC1leg] ∧
    (exC1searcher.search_best exC1me [exC1leg, exC1oth]).doc_meta
      = some exC1oth := by
  decide

/-- Round-half-even of a nonnegative value is nonnegative. -/
lemma round_half_even_nonneg {q : ℚ} (hq : 0 ≤ q) :
    0 ≤ round_half_even q := by
  have h0 : (0 : ℤ) ≤ ⌊q⌋ := Int.floor_nonneg.mpr hq
  unfold round_half_even
  dsimp only
  split_ifs <;> omega

/-- Round-half-even never exceeds an integer upper bound of the value. -/
lemma round_half_even_le {q : ℚ} {c : ℤ} (hq : q ≤ (c : ℚ)) :
    round_half_even q ≤ c := by
  have h1 : ⌊q⌋ ≤ c :=
    le_trans (Int.floor_le_floor hq) (le_of_eq (Int.floor_intCast c))
  have hfl : (⌊q⌋ : ℚ) ≤ q := Int.floor_le q
  have key : (1 : ℚ) / 2 ≤ q - (⌊q⌋ : ℚ) → ⌊q⌋ + 1 ≤ c := by
    intro h2
    have h3 : (⌊q⌋ : ℚ) < (c : ℚ) := by linarith
    have h4 : ⌊q⌋ < c := by exact_mod_cast h3
    omega
  unfold round_half_even
  dsimp only
  split_ifs with hA hB hC
  · exact h1
  · exact key (le_of_lt hB)
  · exact h1
  · exact key (not_lt.mp hA)

/-- `round(q, 2)` stays within `[0, 1]` for `q ∈ [0, 1]`. -/
lemma round2_mem_unit {q : ℚ} (h0 : 0 ≤ q) (h1 : q ≤ 1) :
    0 ≤ round2 q ∧ round2 q ≤ 1 := by
  have hn : 0 ≤ round_half_even (q * 100) :=
    round_half_even_nonneg (by positivity)
  have hq100 : q * 100 ≤ ((100 : ℤ) : ℚ) := by push_cast; linarith
  have hu : round_half_even (q * 100) ≤ 100 := round_half_even_le hq100
  unfold round2
  constructor
  · apply div_nonneg _ (by norm_num)
    exact_mod_cast hn
  · rw [div_le_one (by norm_num : (0 : ℚ) < 100)]
    exact_mod_cast hu

/-- C2: `search_best` excludes the querying document from the survivors;
with no survivor it returns confidence `0` and no document; with `N ≥ 1`
survivors it returns confidence `round(1/N, 2)`, a value in `[0, 1]`,
together with the head of the ranked survivor list — a surviving
document. -/
theorem C2_search_best_confidence (s : LawTitleSearcher)
    (metadata : DocMeta) (docs : List DocMeta) (survivors : List DocMeta)
    (hs : survivors = docs.filter fun x => x.doc_id ≠ metadata.doc_id) :
    (∀ d ∈ survivors, d.doc_id ≠ metadata.doc_id) ∧
    (survivors = [] →
      s.search_best metadata docs
        = { confidence_score := 0, doc_meta := none }) ∧
    (survivors ≠ [] →
      (s.search_best metadata docs).confidence_score
          = round2 (1 / (survivors.length : ℚ)) ∧
      0 ≤ (s.search_best metadata docs).confidence_score ∧
      (s.search_best metadata docs).confidence_score ≤ 1 ∧
      (s.search_best metadata docs).doc_meta
          = (pySortByKey s.country_scope survivors).head? ∧
      ∃ d ∈ survivors, (s.search_best metadata docs).doc_meta = some d) := by
  subst hs
  refine ⟨?_, ?_, ?_⟩
  · intro d hd
    have := (List.mem_filter.mp hd).2
    exact of_decide_eq_true this
  · intro h
    simp only [LawTitleSearcher.search_best, h]
    rfl
  · intro hne
    have hlen : 0 < (docs.filter fun x =>
        x.doc_id ≠ metadata.doc_id).length := List.length_pos.mpr hne
    have hconf :
        (s.search_best metadata docs).confidence_score
          = round2 (1 / (((docs.filter fun x =>
              x.doc_id ≠ metadata.doc_id).length : ℚ))) := by
      simp only [LawTitleSearcher.search_best, if_neg hne]
    have hq0 : (0 : ℚ) ≤ 1 / (((docs.filter fun x =>
        x.doc_id ≠ metadata.doc_id).length : ℚ)) := by positivity
    have hq1 : 1 / (((docs.filter fun x =>
        x.doc_id ≠ metadata.doc_id).length : ℚ)) ≤ 1 := by
      have h1 : (1 : ℚ) ≤ ((docs.filter fun x =>
          x.doc_id ≠ metadata.doc_id).length : ℚ) := by
        exact_mod_cast hlen
      rw [div_le_one (by linarith)]
      exact h1
    have hbounds := round2_mem_unit hq0 hq1
    refine ⟨hconf, hconf ▸ hbounds.1, hconf ▸ hbounds.2, ?_, ?_⟩
    · simp only [LawTitleSearcher.search_best, if_neg hne]
    · have hslen : (pySortByKey s.country_scope (docs.filter fun x =>
          x.doc_id ≠ metadata.doc_id)).length
            = (docs.filter fun x => x.doc_id ≠ metadata.doc_id).length :=
        List.length_insertionSort _ _
      have hsne : pySortByKey s.country_scope (docs.filter fun x =>
          x.doc_id ≠ metadata.doc_id) ≠ [] := by
        intro hcon
        rw [hcon] at hslen
        simp only [List.length_nil] at hslen
        omega
      obtain ⟨d, rest, hd⟩ := List.exists_cons_of_ne_nil hsne
      refine ⟨d, ?_, ?_⟩
      · have hmem : d ∈ pySortByKey s.country_scope (docs.filter fun x =>
            x.doc_id ≠ metadata.doc_id) := by
          rw [hd]; exact List.mem_cons_self d rest
        exact (List.mem_insertionSort _).mp hmem
      · simp only [LawTitleSearcher.search_best, if_neg hne, hd,
          List.head?_cons]

/-- Witness for C2: two surviving candidates next to the querying
document. -/
theorem C2_search_best_confidence_witness :
    (∀ d ∈ ([exC2a, exC2b].filter fun x => x.doc_id ≠ exC2me.doc_id),
      d.doc_id ≠ exC2me.doc_id) ∧
    (exC2searcher.search_best exC2me [exC2a, exC2b]).confidence_score
        = round2 (1 / ((([exC2a, exC2b].filter fun x =>
            x.doc_id ≠ exC2me.doc_id).length : ℚ))) ∧
    0 ≤ (exC2searcher.search_best exC2me [exC2a, exC2b]).confidence_score ∧
    (exC2searcher.search_best exC2me [exC2a, exC2b]).confidence_score ≤ 1 ∧
    ∃ d ∈ ([exC2a, exC2b].filter fun x => x.doc_id ≠ exC2me.doc_id),
      (exC2searcher.search_best exC2me [exC2a, exC2b]).doc_meta = some d := by
  have h := C2_search_best_confidence exC2searcher exC2me [exC2a, exC2b]
    ([exC2a, exC2b].filter fun x => x.doc_id ≠ exC2me.doc_id) rfl
  have h3 := h.2.2 (by decide)
  exact ⟨h.1, h3.1, h3.2.1, h3.2.2.1, h3.2.2.2.2⟩

section LookupDictSpec

variable {α β : Type} [LinearOrder α]

/-- The entries of a built `LookupDict` are sorted ascending by key. -/
lemma ofDict_entries_sorted [DecidableEq α] (pairs : List (α × β)) :
    List.Sorted (fun a b : α × β => a.1 ≤ b.1)
      (LookupDict.ofDict pairs).entries := by
  haveI : IsTotal (α × β) fun a b : α × β => a.1 ≤ b.1 :=
    ⟨fun a b => le_total a.1 b.1⟩
  haveI : IsTrans (α × β) fun a b : α × β => a.1 ≤ b.1 :=
    ⟨fun _ _ _ hab hbc => le_trans hab hbc⟩
  exact List.sorted_insertionSort _ _

/-- In a sorted list, every member is related to the last element. -/
lemma rel_getLast_of_mem {γ : Type} {r : γ → γ → Prop}
    (hrefl : ∀ a, r a a) :
    ∀ (l : List γ), List.Sorted r l → ∀ (h : l ≠ []) (x : γ), x ∈ l →
      r x (l.getLast h)
  | [], _, h, _, _ => absurd rfl h
  | [a], _, _, x, hx => by
    simp only [List.mem_singleton] at hx
    subst hx
    exact hrefl x
  | a :: b :: l', hs, h, x, hx => by
    have hne : b :: l' ≠ [] := by simp
    have hlast : (a :: b :: l').getLast h = (b :: l').getLast hne :=
      List.getLast_cons hne
    rcases List.mem_cons.mp hx with rfl | hx'
    · rw [hlast]
      exact (List.sorted_cons.mp hs).1 _ (List.getLast_mem hne)
    · rw [hlast]
      exact rel_getLast_of_mem hrefl (b :: l') (List.sorted_cons.mp hs).2
        hne x hx'

/-- `floor` computes the last entry of the `≤`-prefix of the sorted
entries. -/
lemma floor_eq_getLast_takeWhile (d : LookupDict α β) (key : α) :
    d.floor key
      = ((d.entries.takeWhile fun kv =>
            decide (kv.1 ≤ key)).getLast?).map Prod.snd := by
  unfold LookupDict.floor LookupDict.keys bisectRight
  dsimp only
  rw [List.takeWhile_map]
  have hcomp : ((fun k => decide (k ≤ key)) ∘ Prod.fst)
      = fun kv : α × β => decide (kv.1 ≤ key) := rfl
  rw [hcomp]
  set t := d.entries.takeWhile fun kv : α × β => decide (kv.1 ≤ key)
    with ht
  rw [List.length_map]
  by_cases h0 : t.length = 0
  · rw [if_pos h0]
    rw [List.length_eq_zero.mp h0]
    rfl
  · rw [if_neg h0]
    have hpre : t <+: d.entries := by rw [ht]; exact List.takeWhile_prefix _
    have htake : t = d.entries.take t.length :=
      List.prefix_iff_eq_take.mp hpre
    have key_eq : ∀ i, i < t.length → t[i]? = d.entries[i]? := by
      intro i hidx
      conv_lhs => rw [htake]
      rw [List.getElem?_take_of_lt hidx]
    rw [List.getLast?_eq_getElem?]
    rw [key_eq (t.length - 1) (by omega)]

/-- `ceiling` computes the first entry past the `<`-prefix of the sorted
entries. -/
lemma ceiling_eq_head_dropWhile (d : LookupDict α β) (key : α) :
    d.ceiling key
      = ((d.entries.dropWhile fun kv =>
            decide (kv.1 < key)).head?).map Prod.snd := by
  unfold LookupDict.ceiling LookupDict.keys bisectLeft
  dsimp only
  rw [List.takeWhile_map]
  have hcomp : ((fun k => decide (k < key)) ∘ Prod.fst)
      = fun kv : α × β => decide (kv.1 < key) := rfl
  rw [hcomp]
  set t := d.entries.takeWhile fun kv : α × β => decide (kv.1 < key)
    with ht
  set dr := d.entries.dropWhile fun kv : α × β => decide (kv.1 < key)
    with hdr
  have happ : t ++ dr = d.entries := by
    rw [ht, hdr]; exact List.takeWhile_append_dropWhile _ _
  have hlen : t.length + dr.length = d.entries.length := by
    rw [← happ, List.length_append]
  rw [List.length_map, List.length_map]
  by_cases h0 : t.length = d.entries.length
  · rw [if_pos h0]
    have hdrnil : dr = [] := by
      have : dr.length = 0 := by omega
      exact List.length_eq_zero.mp this
    rw [hdrnil]
    rfl
  · rw [if_neg h0]
    have hget : d.entries[t.length]? = dr[0]? := by
      conv_lhs => rw [← happ]
      rw [List.getElem?_append_right (le_refl t.length)]
      simp
    rw [hget, ← List.head?_eq_getElem?]

/-- If `floor` misses, no key is `≤` the probe; and conversely. -/
lemma floor_none_iff {es : List (α × β)}
    (hs : List.Sorted (fun a b : α × β => a.1 ≤ b.1) es) (key : α) :
    (LookupDict.mk es).floor key = none ↔ ∀ kv ∈ es, ¬ kv.1 ≤ key := by
  rw [floor_eq_getLast_takeWhile]
  simp only [Option.map_eq_none', List.getLast?_eq_none_iff,
    List.takeWhile_eq_nil_iff]
  constructor
  · intro hnil kv hmem hle
    have hlen : 0 < es.length :=
      List.length_pos.mpr (List.ne_nil_of_mem hmem)
    have hhead := hnil hlen
    have h0 : ¬ (es.get ⟨0, hlen⟩).1 ≤ key := fun hc =>
      hhead (decide_eq_true hc)
    have hrel : (es.get ⟨0, hlen⟩).1 ≤ kv.1 := by
      obtain ⟨e0, tl, rfl⟩ : ∃ e0 tl, es = e0 :: tl := by
        cases es with
        | nil => exact absurd hlen (by simp)
        | cons a b => exact ⟨a, b, rfl⟩
      rcases List.mem_cons.mp hmem with rfl | hmem'
      · exact le_refl _
      · exact (List.sorted_cons.mp hs).1 kv hmem'
    exact h0 (le_trans hrel hle)
  · intro hall hlen
    have hmem : es.get ⟨0, hlen⟩ ∈ es := List.get_mem es _ hlen
    intro hc
    exact hall _ hmem (of_decide_eq_true hc)

/-- The head of a non-empty `dropWhile` fails the predicate. -/
lemma not_of_dropWhile_eq_cons {γ : Type} {l tl : List γ} {p : γ → Bool}
    {a : γ} (h : l.dropWhile p = a :: tl) : ¬ p a := by
  induction l with
  | nil => simp [List.dropWhile] at h
  | cons x xs ih =>
    rw [List.dropWhile_cons] at h
    split at h
    · exact ih h
    · cases h
      assumption

/-- If some key is `≤` the probe, `floor` returns the value of the
greatest such key. -/
lemma floor_some {es : List (α × β)}
    (hs : List.Sorted (fun a b : α × β => a.1 ≤ b.1) es) (key : α)
    (h : ∃ kv ∈ es, kv.1 ≤ key) :
    ∃ kv ∈ es, kv.1 ≤ key ∧
      (∀ kv' ∈ es, kv'.1 ≤ key → kv'.1 ≤ kv.1) ∧
      (LookupDict.mk es).floor key = some kv.2 := by
  have hbr := floor_eq_getLast_takeWhile (LookupDict.mk es) key
  set t := es.takeWhile fun kv : α × β => decide (kv.1 ≤ key) with ht
  have htne : t ≠ [] := by
    intro h0
    have hnone : (LookupDict.mk es).floor key = none := by
      rw [hbr, h0]; rfl
    obtain ⟨kv0, hm, hle⟩ := h
    exact ((floor_none_iff hs key).mp hnone) kv0 hm hle
  obtain ⟨last, hlast⟩ :=
    Option.ne_none_iff_exists'.mp
      (fun hc => htne (List.getLast?_eq_none_iff.mp hc))
  have hlast_mem_t : last ∈ t := List.mem_of_mem_getLast? hlast
  have hsub : List.Sublist t es := by
    rw [ht]; exact List.takeWhile_sublist _
  have hlast_mem : last ∈ es := hsub.subset hlast_mem_t
  have hlast_le : last.1 ≤ key := by
    have := List.mem_takeWhile_imp (ht ▸ hlast_mem_t)
    exact of_decide_eq_true this
  refine ⟨last, hlast_mem, hlast_le, ?_, ?_⟩
  · intro kv' hkv' hkle'
    have happ : t ++ es.dropWhile (fun kv : α × β => decide (kv.1 ≤ key))
        = es := by rw [ht]; exact List.takeWhile_append_dropWhile _ _
    have hkv2 : kv' ∈ t ++ es.dropWhile
        (fun kv : α × β => decide (kv.1 ≤ key)) := by
      rw [happ]; exact hkv'
    rcases List.mem_append.mp hkv2 with h_t | h_dr
    · have hts : List.Sorted (fun a b : α × β => a.1 ≤ b.1) t :=
        List.Pairwise.sublist hsub hs
      have hlast_eq : last = t.getLast htne := by
        have := List.getLast?_eq_getLast t htne
        rw [hlast] at this
        exact Option.some_injective _ this
      have := rel_getLast_of_mem (fun a : α × β => le_refl a.1) t hts
        htne kv' h_t
      rw [← hlast_eq] at this
      exact this
    · exfalso
      obtain ⟨d0, tl, hdr2⟩ :=
        List.exists_cons_of_ne_nil (List.ne_nil_of_mem h_dr)
      have hd0 := not_of_dropWhile_eq_cons hdr2
      have hd0' : ¬ d0.1 ≤ key := fun hc => hd0 (decide_eq_true hc)
      have hdsorted : List.Sorted (fun a b : α × β => a.1 ≤ b.1)
          (es.dropWhile fun kv : α × β => decide (kv.1 ≤ key)) :=
        List.Pairwise.sublist (List.dropWhile_sublist _) hs
      rw [hdr2] at h_dr hdsorted
      have hrel : d0.1 ≤ kv'.1 := by
        rcases List.mem_cons.mp h_dr with rfl | hmem'
        · exact le_refl _
        · exact (List.sorted_cons.mp hdsorted).1 kv' hmem'
      exact hd0' (le_trans hrel hkle')
  · rw [hbr, hlast]
    rfl

/-- If `ceiling` misses, no key is `≥` the probe; and conversely. -/
lemma ceiling_none_iff {es : List (α × β)} (key : α) :
    (LookupDict.mk es).ceiling key = none ↔ ∀ kv ∈ es, ¬ key ≤ kv.1 := by
  rw [ceiling_eq_head_dropWhile]
  simp only [Option.map_eq_none', List.head?_eq_none_iff,
    List.dropWhile_eq_nil_iff, decide_eq_true_eq]
  constructor
  · intro hall kv hmem hle
    exact absurd (hall kv hmem) (not_lt.mpr hle)
  · intro hall kv hmem
    exact lt_of_not_le (hall kv hmem)

/-- If some key is `≥` the probe, `ceiling` returns the value of the
smallest such key. -/
lemma ceiling_some {es : List (α × β)}
    (hs : List.Sorted (fun a b : α × β => a.1 ≤ b.1) es) (key : α)
    (h : ∃ kv ∈ es, key ≤ kv.1) :
    ∃ kv ∈ es, key ≤ kv.1 ∧
      (∀ kv' ∈ es, key ≤ kv'.1 → kv.1 ≤ kv'.1) ∧
      (LookupDict.mk es).ceiling key = some kv.2 := by
  have hbr := ceiling_eq_head_dropWhile (LookupDict.mk es) key
  set dr := es.dropWhile fun kv : α × β => decide (kv.1 < key) with hdrdef
  have hdrne : dr ≠ [] := by
    intro h0
    have hnone : (LookupDict.mk es).ceiling key = none := by
      rw [hbr, h0]; rfl
    obtain ⟨kv0, hm, hle⟩ := h
    exact ((ceiling_none_iff key).mp hnone) kv0 hm hle
  obtain ⟨d0, tl, hdr2⟩ := List.exists_cons_of_ne_nil hdrne
  have hsub : List.Sublist dr es := by
    rw [hdrdef]; exact List.dropWhile_sublist _
  have hd0_mem : d0 ∈ es :=
    hsub.subset (by rw [hdr2]; exact List.mem_cons_self d0 tl)
  have hd0 := not_of_dropWhile_eq_cons (hdrdef ▸ hdr2)
  have hd0' : key ≤ d0.1 := not_lt.mp fun hc => hd0 (decide_eq_true hc)
  refine ⟨d0, hd0_mem, hd0', ?_, ?_⟩
  · intro kv' hkv' hkle'
    have happ : es.takeWhile (fun kv : α × β => decide (kv.1 < key)) ++ dr
        = es := by rw [hdrdef]; exact List.takeWhile_append_dropWhile _ _
    have hkv2 : kv' ∈ es.takeWhile
        (fun kv : α × β => decide (kv.1 < key)) ++ dr := by
      rw [happ]; exact hkv'
    rcases List.mem_append.mp hkv2 with h_t | h_dr
    · exfalso
      have := List.mem_takeWhile_imp h_t
      exact absurd hkle' (not_le.mpr (of_decide_eq_true this))
    · have hdsorted : List.Sorted (fun a b : α × β => a.1 ≤ b.1) dr :=
        List.Pairwise.sublist hsub hs
      rw [hdr2] at h_dr hdsorted
      rcases List.mem_cons.mp h_dr with rfl | hmem'
      · exact le_refl _
      · exact (List.sorted_cons.mp hdsorted).1 kv' hmem'
  · rw [hbr, hdr2]
    rfl

end LookupDictSpec

/-- C10: over the sorted entry list of a built `LookupDict`, `floor k`
returns the value of the greatest key `≤ k` and `ceiling k` the value of
the smallest key `≥ k`, each returning `none` — never failing — exactly
when no such key exists. -/
theorem C10_lookupdict_floor_ceiling {α β : Type} [LinearOrder α]
    [DecidableEq α] (pairs : List (α × β)) (key : α) :
    ((LookupDict.ofDict pairs).floor key = none ↔
      ∀ kv ∈ (LookupDict.ofDict pairs).entries, ¬ kv.1 ≤ key) ∧
    ((∃ kv ∈ (LookupDict.ofDict pairs).entries, kv.1 ≤ key) →
      ∃ kv ∈ (LookupDict.ofDict pairs).entries, kv.1 ≤ key ∧
        (∀ kv' ∈ (LookupDict.ofDict pairs).entries,
          kv'.1 ≤ key → kv'.1 ≤ kv.1) ∧
        (LookupDict.ofDict pairs).floor key = some kv.2) ∧
    ((LookupDict.ofDict pairs).ceiling key = none ↔
      ∀ kv ∈ (LookupDict.ofDict pairs).entries, ¬ key ≤ kv.1) ∧
    ((∃ kv ∈ (LookupDict.ofDict pairs).entries, key ≤ kv.1) →
      ∃ kv ∈ (LookupDict.ofDict pairs).entries, key ≤ kv.1 ∧
        (∀ kv' ∈ (LookupDict.ofDict pairs).entries,
          key ≤ kv'.1 → kv.1 ≤ kv'.1) ∧
        (LookupDict.ofDict pairs).ceiling key = some kv.2) := by
  have hs := ofDict_entries_sorted pairs
  exact ⟨floor_none_iff hs key, floor_some hs key,
    ceiling_none_iff key, ceiling_some hs key⟩

/-- If `floor` answers, the answered value sits at some entry whose key
is `≤` the probe. -/
lemma floor_sound {α β : Type} [LinearOrder α] {d : LookupDict α β}
    {key : α} {v : β} (h : d.floor key = some v) :
    ∃ kv ∈ d.entries, kv.2 = v ∧ kv.1 ≤ key := by
  rw [floor_eq_getLast_takeWhile] at h
  obtain ⟨last, hlast, hv⟩ := Option.map_eq_some'.mp h
  have hmem_t : last ∈ d.entries.takeWhile
      fun kv : α × β => decide (kv.1 ≤ key) :=
    List.mem_of_mem_getLast? hlast
  have hsub : List.Sublist (d.entries.takeWhile
      fun kv : α × β => decide (kv.1 ≤ key)) d.entries :=
    List.takeWhile_sublist _
  refine ⟨last, hsub.subset hmem_t, hv, ?_⟩
  have hp := List.mem_takeWhile_imp hmem_t
  exact of_decide_eq_true hp

/-- If `ceiling` answers, the answered value sits at some entry whose key
is `≥` the probe. -/
lemma ceiling_sound {α β : Type} [LinearOrder α] {d : LookupDict α β}
    {key : α} {v : β} (h : d.ceiling key = some v) :
    ∃ kv ∈ d.entries, kv.2 = v ∧ key ≤ kv.1 := by
  rw [ceiling_eq_head_dropWhile] at h
  obtain ⟨d0, hd0, hv⟩ := Option.map_eq_some'.mp h
  obtain ⟨dd, tl, hdr⟩ := List.exists_cons_of_ne_nil
    (fun hc : d.entries.dropWhile
        (fun kv : α × β => decide (kv.1 < key)) = [] => by
      rw [hc] at hd0; exact Option.noConfusion hd0)
  have hd0' : dd = d0 := by
    rw [hdr] at hd0
    exact Option.some_injective _ hd0
  subst hd0'
  have hnot := not_of_dropWhile_eq_cons hdr
  have hsub : List.Sublist (d.entries.dropWhile
      fun kv : α × β => decide (kv.1 < key)) d.entries :=
    List.dropWhile_sublist _
  refine ⟨dd, hsub.subset ?_, hv, ?_⟩
  · rw [hdr]; exact List.mem_cons_self dd tl
  · exact not_lt.mp fun hc => hnot (decide_eq_true hc)

/-- One `dict[k] = v` step only rearranges pairs of the inputs. -/
lemma pyDictUpdate_mem {α β : Type} [DecidableEq α]
    {acc : List (α × β)} {kv e : α × β} (h : e ∈ pyDictUpdate acc kv) :
    e ∈ acc ∨ e = kv := by
  unfold pyDictUpdate at h
  split at h
  · obtain ⟨p, hp, hpe⟩ := List.mem_map.mp h
    by_cases hk : p.1 = kv.1
    · rw [if_pos hk] at hpe
      right
      rw [← hpe, hk]
    · rw [if_neg hk] at hpe
      left
      rw [← hpe]
      exact hp
  · rcases List.mem_append.mp h with h1 | h1
    · exact Or.inl h1
    · right
      simpa using h1

/-- Every pair of the Python dict comes from the input pair sequence. -/
lemma pyDict_mem {α β : Type} [DecidableEq α] {e : α × β} :
    ∀ {ps : List (α × β)} {acc : List (α × β)},
      e ∈ ps.foldl pyDictUpdate acc → e ∈ acc ∨ e ∈ ps := by
  intro ps
  induction ps with
  | nil => intro acc h; exact Or.inl h
  | cons kv ps' ih =>
    intro acc h
    rcases ih h with h1 | h1
    · rcases pyDictUpdate_mem h1 with h2 | h2
      · exact Or.inl h2
      · exact Or.inr (by rw [h2]; exact List.mem_cons_self kv ps')
    · exact Or.inr (List.mem_cons_of_mem kv h1)

/-- Every entry of a built `LookupDict` comes from the input pairs. -/
lemma ofDict_entries_subset {α β : Type} [LinearOrder α] [DecidableEq α]
    {pairs : List (α × β)} {kv : α × β}
    (h : kv ∈ (LookupDict.ofDict pairs).entries) : kv ∈ pairs := by
  unfold LookupDict.ofDict at h
  have h1 : kv ∈ pyDict pairs := (List.mem_insertionSort _).mp h
  rcases pyDict_mem h1 with h2 | h2
  · exact absurd h2 (List.not_mem_nil kv)
  · exact h2

/-- Inversion of one association attempt: an attachment `(e, a)` comes
either from the forward floor lookup with the sentence-ending gate
passed, or from the backward ceiling lookup with that gate passed. -/
lemma assocAttrOne_inv {text : List Char}
    {lkE lkS : LookupDict Int Entity} {a e a2 : Entity}
    (h : assocAttrOne text lkE lkS a = some (e, a2)) :
    a2 = a ∧
      ((lkE.floor ((a.start : Int) - 1) = some e ∧
        _without_sentence_ending text e.endPos a.start = true) ∨
       (lkS.ceiling ((a.endPos : Int)) = some e ∧
        _without_sentence_ending text a.endPos e.start = true)) := by
  unfold assocAttrOne at h
  dsimp only at h
  split at h
  case _ p hp =>
    -- fwd = some p, h : some p = some (e, a2)
    have hpe : p = (e, a2) := Option.some_injective _ h
    subst hpe
    split at hp
    · split at hp
      case _ entity hfloor =>
        split at hp
        case isTrue hgates =>
          have : (entity, a) = (e, a2) := Option.some_injective _ hp
          have he : entity = e := congrArg Prod.fst this
          have ha : a = a2 := congrArg Prod.snd this
          subst he
          refine ⟨ha.symm, Or.inl ⟨hfloor, ?_⟩⟩
          exact hgates.1
        case isFalse => exact Option.noConfusion hp
      case _ => exact Option.noConfusion hp
    · exact Option.noConfusion hp
  case _ hp =>
    -- fwd = none, backward lookup
    split at h
    case _ entity hceil =>
      split at h
      case isTrue hgate =>
        have : (entity, a) = (e, a2) := Option.some_injective _ h
        have he : entity = e := congrArg Prod.fst this
        have ha : a = a2 := congrArg Prod.snd this
        subst he
        exact ⟨ha.symm, Or.inr ⟨hceil, hgate⟩⟩
      case isFalse => exact Option.noConfusion h
    case _ => exact Option.noConfusion h

/-- A passed sentence-ending gate rules out any sentence-ending character
in the guarded range. -/
lemma gate_blocks {text : List Char} {s e : Nat}
    (hgate : _without_sentence_ending text s e = true) {c : Char}
    (hc : c ∈ pySlice text s e) (hse : c ∈ _SENTENCE_ENDING) : False := by
  unfold _without_sentence_ending at hgate
  have := List.all_eq_true.mp hgate c hse
  simp only [Bool.not_eq_true'] at this
  rw [← List.elem_iff] at hc
  have h2 : List.elem c (pySlice text s e) = false := this
  rw [h2] at hc
  exact Bool.noConfusion hc

/-- The empty Python slice. -/
lemma pySlice_self (text : List Char) (i : Nat) : pySlice text i i = [] := by
  unfold pySlice
  exact List.drop_eq_nil_of_le (le_trans (List.length_take_le i text) le_rfl)

/-- C5: an attribute entity of type DATE or ISSUE_NO separated from a
candidate entity by a sentence-ending character — on either side — is
never attached to that entity by `_associate_attributes`, whatever the
entity and attribute groups are. -/
theorem C5_sentence_ending_blocks_attachment (text : List Char)
    (entities attrs : List Entity) (e attr : Entity)
    (hwf_e : e.start ≤ e.endPos) (hwf_a : attr.start ≤ attr.endPos)
    (_hty : attr.entity_type = .date ∨ attr.entity_type = .issue_no)
    (hsep : (e.endPos ≤ attr.start ∧
              ∃ c ∈ pySlice text e.endPos attr.start,
                c ∈ _SENTENCE_ENDING) ∨
            (attr.endPos ≤ e.start ∧
              ∃ c ∈ pySlice text attr.endPos e.start,
                c ∈ _SENTENCE_ENDING)) :
    (e, attr) ∉ _associate_attributes text entities attrs := by
  intro hmem
  unfold _associate_attributes at hmem
  dsimp only at hmem
  obtain ⟨a, _ha, hassoc⟩ := List.mem_filterMap.mp hmem
  obtain ⟨ha2, hcase⟩ := assocAttrOne_inv hassoc
  subst ha2
  rcases hcase with ⟨hfloor, hgate⟩ | ⟨hceil, hgate⟩
  · -- forward attachment: e ends strictly before attr starts
    obtain ⟨kv, hkv_mem, hkv_v, hkv_le⟩ := floor_sound hfloor
    obtain ⟨x, _hx_mem, hx_eq⟩ :=
      List.mem_map.mp (ofDict_entries_subset hkv_mem)
    have hx2 : x = kv.2 := congrArg Prod.snd hx_eq
    have hk1 : ((x.endPos : Nat) : Int) = kv.1 := congrArg Prod.fst hx_eq
    rw [hx2, hkv_v] at hk1
    have hlt : e.endPos < attr.start := by
      rw [← hk1] at hkv_le
      omega
    rcases hsep with ⟨_hle, c, hcmem, hcse⟩ | ⟨hba, _⟩
    · exact gate_blocks hgate hcmem hcse
    · omega
  · -- backward attachment: e starts at or after the attr's end
    obtain ⟨kv, hkv_mem, hkv_v, hkv_le⟩ := ceiling_sound hceil
    obtain ⟨x, _hx_mem, hx_eq⟩ :=
      List.mem_map.mp (ofDict_entries_subset hkv_mem)
    have hx2 : x = kv.2 := congrArg Prod.snd hx_eq
    have hk1 : ((x.start : Nat) : Int) = kv.1 := congrArg Prod.fst hx_eq
    rw [hx2, hkv_v] at hk1
    have hge : attr.endPos ≤ e.start := by
      rw [← hk1] at hkv_le
      omega
    rcases hsep with ⟨hfe, c, hcmem, hcse⟩ | ⟨_hba, c, hcmem, hcse⟩
    · have heq : e.endPos = attr.start := by omega
      rw [heq, pySlice_self] at hcmem
      exact absurd hcmem (List.not_mem_nil c)
    · exact gate_blocks hgate hcmem hcse

/-- Witness for C5: a period between the candidate entity and a date
attribute. -/
theorem C5_sentence_ending_blocks_attachment_witness :
    exC5entity.start ≤ exC5entity.endPos ∧
    exC5attr.start ≤ exC5attr.endPos ∧
    exC5attr.entity_type = .date ∧
    (exC5entity.endPos ≤ exC5attr.start ∧
      ∃ c ∈ pySlice exC5text exC5entity.endPos exC5attr.start,
        c ∈ _SENTENCE_ENDING) ∧
    (exC5entity, exC5attr) ∉
      _associate_attributes exC5text [exC5entity] [exC5attr] :=
  ⟨by decide, by decide, by decide, by decide,
   C5_sentence_ending_blocks_attachment exC5text [exC5entity] [exC5attr]
     exC5entity exC5attr (by decide) (by decide) (Or.inl (by decide))
     (Or.inl (by decide))⟩

/-- Witness for C10 on a concrete four-entry map. -/
theorem C10_lookupdict_floor_ceiling_witness :
    (∃ kv ∈ (LookupDict.ofDict exC10pairs).entries, kv.1 ≤ (3 : Int)) ∧
    (∃ kv ∈ (LookupDict.ofDict exC10pairs).entries, kv.1 ≤ (3 : Int) ∧
      (∀ kv' ∈ (LookupDict.ofDict exC10pairs).entries,
        kv'.1 ≤ (3 : Int) → kv'.1 ≤ kv.1) ∧
      (LookupDict.ofDict exC10pairs).floor (3 : Int) = some kv.2) ∧
    (∃ kv ∈ (LookupDict.ofDict exC10pairs).entries, (2 : Int) ≤ kv.1 ∧
      (∀ kv' ∈ (LookupDict.ofDict exC10pairs).entries,
        (2 : Int) ≤ kv'.1 → kv.1 ≤ kv'.1) ∧
      (LookupDict.ofDict exC10pairs).ceiling (2 : Int) = some kv.2) :=
  ⟨by decide,
   (C10_lookupdict_floor_ceiling exC10pairs 3).2.1 (by decide),
   (C10_lookupdict_floor_ceiling exC10pairs 2).2.2.2 (by decide)⟩

/-- C9, counterexample to the claim as stated: an index built from one
document whose tokenized title has no prefixes never creates a
`prefix_index`, so every direct prefix-index intersection lookup —
non-empty key sets included — returns the empty set, while the fallback
search (no explicit prefixes) returns one document id. -/
theorem C9_fallback_beats_any_direct_lookup :
    exC9span.prefixes = [] ∧
    (exC9searcher._search_by_prefixes exC9span [] exC9idx).card = 1 ∧
    prefixLookupsAllEmpty exC9idx := by
  refine ⟨rfl, by decide, ?_⟩
  intro keys
  have h : exC9idx.inverted_indexes.lookup "prefix_index" = none := by
    decide
  unfold MultiDimensionalInvertedIndex.search_by_index
  rw [h]

/-- C9 amended: the fallback prefix search only ever returns ids found
by the direct index lookups it consults (empty-prefix entry of the core
term, common-prefix union, promulgator attribute keys, country-scope
entry), so it returns no more ids than the union of those lookups. -/
theorem C9_fallback_subset_of_consulted_lookups (s : LawTitleSearcher)
    (token_span : TokenSpan)
    (attributes : List (EntityType × Finset String))
    (index : MultiDimensionalInvertedIndex) (u : Finset String)
    (hnp : token_span.prefixes = [])
    (hu : u = index.search_by_index "empty_prefix_index"
            [.s token_span.core_term]
          ∪ index.search_by_index "prefix_index"
            (s.common_prefixes.map .s) true
          ∪ (match attributes.lookup .promulgator with
             | some promulgators =>
               index.search_by_index "promulgator_index"
                 ((promulgators.sort (· ≤ ·)).map .s)
             | none => (∅ : Finset String))
          ∪ index.search_by_index "scope_index" [.s s.country_scope]) :
    s._search_by_prefixes token_span attributes index ⊆ u ∧
    (s._search_by_prefixes token_span attributes index).card ≤ u.card := by
  have hsub : s._search_by_prefixes token_span attributes index ⊆ u := by
    intro x hx
    subst hu
    unfold LawTitleSearcher._search_by_prefixes at hx
    rw [if_neg (by simp [hnp])] at hx
    dsimp only at hx
    split at hx
    · -- candidates non-empty: x is in the base/promulgator union
      split at hx
      · split at hx
        · simp only [Finset.mem_union] at hx ⊢
          tauto
        · simp only [Finset.mem_union] at hx ⊢
          tauto
      · simp only [Finset.mem_union] at hx ⊢
        tauto
    · -- fallback to the country-scope lookup
      split at hx
      next hempty =>
        rw [hempty] at hx
        exact absurd hx (Finset.not_mem_empty x)
      next hne =>
        have hxc : x ∈ index.search_by_index "scope_index"
            [.s s.country_scope] := (Finset.mem_inter.mp hx).1
        simp only [Finset.mem_union]
        tauto
  exact ⟨hsub, Finset.card_le_card hsub⟩

/-- Witness for the amended C9 on the one-document index. -/
theorem C9_fallback_subset_witness :
    exC9span.prefixes = [] ∧
    exC9searcher._search_by_prefixes exC9span [] exC9idx ⊆
      (exC9idx.search_by_index "empty_prefix_index"
         [.s exC9span.core_term]
       ∪ exC9idx.search_by_index "prefix_index"
         (exC9searcher.common_prefixes.map .s) true
       ∪ (match ([] : List (EntityType × Finset String)).lookup
            .promulgator with
          | some promulgators =>
            exC9idx.search_by_index "promulgator_index"
              ((promulgators.sort (· ≤ ·)).map .s)
          | none => (∅ : Finset String))
       ∪ exC9idx.search_by_index "scope_index"
         [.s exC9searcher.country_scope]) :=
  ⟨rfl,
   (C9_fallback_subset_of_consulted_lookups exC9searcher exC9span []
     exC9idx _ rfl rfl).1⟩

/-- `overlaps_with` is symmetric. -/
lemma Segment.overlaps_with_symm {a b : Segment}
    (h : a.overlaps_with b) : b.overlaps_with a :=
  ⟨h.2, h.1⟩

/-- Connectivity within a fixed member list is symmetric. -/
lemma connectedIn_symm {l : List Segment} {a b : Segment}
    (h : connectedIn l a b) : connectedIn l b a :=
  Relation.ReflTransGen.symmetric
    (fun _ _ hxy => ⟨hxy.2.1, hxy.1, Segment.overlaps_with_symm hxy.2.2⟩) h

/-- Connectivity is monotone in the ambient member list. -/
lemma connectedIn_mono {l₁ l₂ : List Segment}
    (hsub : ∀ x, x ∈ l₁ → x ∈ l₂) {a b : Segment}
    (h : connectedIn l₁ a b) : connectedIn l₂ a b := by
  induction h with
  | refl => exact Relation.ReflTransGen.refl
  | tail _hab hbc ih =>
    exact Relation.ReflTransGen.tail ih
      ⟨hsub _ hbc.1, hsub _ hbc.2.1, hbc.2.2⟩

/-- Connectivity only depends on the member set. -/
lemma connectedIn_congr {l₁ l₂ : List Segment}
    (hmem : ∀ x, x ∈ l₁ ↔ x ∈ l₂) (a b : Segment) :
    connectedIn l₁ a b ↔ connectedIn l₂ a b :=
  ⟨connectedIn_mono fun x hx => (hmem x).mp hx,
   connectedIn_mono fun x hx => (hmem x).mpr hx⟩

/-- The best-of-cluster predicate only depends on the member set. -/
lemma bestOfCluster_congr {l₁ l₂ : List Segment}
    (hmem : ∀ x, x ∈ l₁ ↔ x ∈ l₂) (s : Segment) :
    bestOfCluster l₁ s ↔ bestOfCluster l₂ s := by
  unfold bestOfCluster
  constructor
  · intro h t ht hc
    exact h t ((hmem t).mpr ht) ((connectedIn_congr hmem s t).mpr hc)
  · intro h t ht hc
    exact h t ((hmem t).mp ht) ((connectedIn_congr hmem s t).mp hc)

/-- When no member of `A` overlaps a member of `B`, a chain starting in
`A` stays in `A`. -/
lemma connected_stay_left {A B : List Segment} {x y : Segment}
    (hsep : ∀ a ∈ A, ∀ b ∈ B, ¬ a.overlaps_with b) (hx : x ∈ A)
    (h : connectedIn (A ++ B) x y) : y ∈ A ∧ connectedIn A x y := by
  induction h with
  | refl => exact ⟨hx, Relation.ReflTransGen.refl⟩
  | @tail z w _hab hbc ih =>
    have hzA : z ∈ A := ih.1
    have hwB : ¬ w ∈ B := fun hwB => hsep z hzA w hwB hbc.2.2
    have hwA : w ∈ A := by
      rcases List.mem_append.mp hbc.2.1 with h1 | h1
      · exact h1
      · exact absurd h1 hwB
    exact ⟨hwA, Relation.ReflTransGen.tail ih.2 ⟨hzA, hwA, hbc.2.2⟩⟩

/-- When no member of `A` overlaps a member of `B`, a chain starting in
`B` stays in `B`. -/
lemma connected_stay_right {A B : List Segment} {x y : Segment}
    (hsep : ∀ a ∈ A, ∀ b ∈ B, ¬ a.overlaps_with b) (hx : x ∈ B)
    (h : connectedIn (A ++ B) x y) : y ∈ B ∧ connectedIn B x y := by
  induction h with
  | refl => exact ⟨hx, Relation.ReflTransGen.refl⟩
  | @tail z w _hab hbc ih =>
    have hzB : z ∈ B := ih.1
    have hwA : ¬ w ∈ A := fun hwA =>
      hsep w hwA z hzB (Segment.overlaps_with_symm hbc.2.2)
    have hwB : w ∈ B := by
      rcases List.mem_append.mp hbc.2.1 with h1 | h1
      · exact absurd h1 hwA
      · exact h1
    exact ⟨hwB, Relation.ReflTransGen.tail ih.2 ⟨hzB, hwB, hbc.2.2⟩⟩

/-- Unfolding of the sweep on a cons cell with chained grouping. -/
lemma keepLongestLoop_cons_false (longest : Segment) (groupEnd : Int)
    (seg : Segment) (rest : List Segment) :
    keepLongestLoop false longest groupEnd (seg :: rest)
      = if (seg.start : Int) < groupEnd then
          keepLongestLoop false
            (if longest.lenInt < seg.lenInt then seg else longest)
            (max groupEnd (seg.endPos : Int)) rest
        else
          longest :: keepLongestLoop false seg (seg.endPos : Int) rest := by
  rfl

/-- Master invariant of the `"longest"` sweep with chained grouping
(`direct_only = False`): while `grp` holds the members of the open group,
`longest` its running best and `groupEnd` its running maximal end, the
emitted list selects exactly one representative — the longest, ties to
the earliest — from each maximal overlapping cluster of `grp ++ rest`,
in positional order. -/
lemma keepLongest_master :
    ∀ (rest grp : List Segment) (longest : Segment) (groupEnd : Int),
      longest ∈ grp →
      (∀ t ∈ grp, betterSeg longest t) →
      (∀ t ∈ grp, (t.endPos : Int) ≤ groupEnd) →
      (∃ m ∈ grp, (m.endPos : Int) = groupEnd) →
      (∀ t ∈ grp, connectedIn (grp ++ rest) longest t) →
      List.Pairwise (fun a b => a.start ≤ b.start) rest →
      (∀ g ∈ grp, ∀ r ∈ rest, g.start ≤ r.start) →
      (∀ x ∈ grp ++ rest, x.start < x.endPos) →
      (∀ s ∈ keepLongestLoop false longest groupEnd rest,
        s ∈ grp ++ rest) ∧
      List.Pairwise (fun a b => a.endPos ≤ b.start)
        (keepLongestLoop false longest groupEnd rest) ∧
      (∀ s ∈ keepLongestLoop false longest groupEnd rest,
        bestOfCluster (grp ++ rest) s) ∧
      (∀ t ∈ grp ++ rest,
        ∃ s ∈ keepLongestLoop false longest groupEnd rest,
          connectedIn (grp ++ rest) t s) ∧
      (∀ s ∈ keepLongestLoop false longest groupEnd rest,
        ∀ s' ∈ keepLongestLoop false longest groupEnd rest,
          connectedIn (grp ++ rest) s s' → s = s') := by
  intro rest
  induction rest with
  | nil =>
    intro grp longest groupEnd hmem hbest _hge _hwit hconn _hsorted
      _hcross _hne
    simp only [keepLongestLoop]
    refine ⟨?_, ?_, ?_, ?_, ?_⟩
    · intro s hs
      simp only [List.mem_singleton] at hs
      subst hs
      exact List.mem_append.mpr (Or.inl hmem)
    · exact List.pairwise_singleton _ _
    · intro s hs
      simp only [List.mem_singleton] at hs
      subst hs
      intro t ht _hc
      exact hbest t (by simpa using ht)
    · intro t ht
      refine ⟨longest, List.mem_singleton_self _, ?_⟩
      exact connectedIn_symm (hconn t (by simpa using ht))
    · intro s hs s' hs' _
      simp only [List.mem_singleton] at hs hs'
      rw [hs, hs']
  | cons seg rest' ih =>
    intro grp longest groupEnd hmem hbest hge hwit hconn hsorted
      hcross hne
    have hsegL : seg ∈ grp ++ seg :: rest' :=
      List.mem_append.mpr (Or.inr (List.mem_cons_self seg rest'))
    have hseg_ne : seg.start < seg.endPos := hne seg hsegL
    rw [keepLongestLoop_cons_false]
    by_cases hc : (seg.start : Int) < groupEnd
    · -- the segment joins the open group
      rw [if_pos hc]
      have hamb : grp ++ seg :: rest' = (grp ++ [seg]) ++ rest' := by
        simp
      rw [hamb] at hconn hne ⊢
      obtain ⟨m, hm, hme⟩ := hwit
      -- the maximal-end member overlaps the joining segment
      have hov : m.overlaps_with seg := by
        constructor
        · exact lt_of_le_of_lt
            (hcross m hm seg (List.mem_cons_self seg rest')) hseg_ne
        · have : (seg.start : Int) < (m.endPos : Int) := by
            rw [hme]; exact hc
          exact_mod_cast this
      have hmA : m ∈ (grp ++ [seg]) ++ rest' :=
        List.mem_append.mpr (Or.inl (List.mem_append.mpr (Or.inl hm)))
      have hsegA : seg ∈ (grp ++ [seg]) ++ rest' := by rw [← hamb]; exact hsegL
      have hconn_m_seg :
          connectedIn ((grp ++ [seg]) ++ rest') m seg :=
        Relation.ReflTransGen.single ⟨hmA, hsegA, hov⟩
      have hconn_l_seg :
          connectedIn ((grp ++ [seg]) ++ rest') longest seg :=
        Relation.ReflTransGen.trans (hconn m hm) hconn_m_seg
      refine ih (grp ++ [seg])
        (if longest.lenInt < seg.lenInt then seg else longest)
        (max groupEnd (seg.endPos : Int)) ?_ ?_ ?_ ?_ ?_ ?_ ?_ ?_
      · -- membership of the new running best
        by_cases hlen : longest.lenInt < seg.lenInt
        · rw [if_pos hlen]
          exact List.mem_append.mpr (Or.inr (List.mem_singleton_self seg))
        · rw [if_neg hlen]
          exact List.mem_append.mpr (Or.inl hmem)
      · -- the new running best beats the whole new group
        intro t ht
        rcases List.mem_append.mp ht with htg | hts
        · by_cases hlen : longest.lenInt < seg.lenInt
          · rw [if_pos hlen]
            rcases hbest t htg with h1 | h1
            · exact Or.inl (lt_trans h1 hlen)
            · exact Or.inl (h1.1 ▸ hlen)
          · rw [if_neg hlen]
            exact hbest t htg
        · simp only [List.mem_singleton] at hts
          rw [hts]
          by_cases hlen : longest.lenInt < seg.lenInt
          · rw [if_pos hlen]
            exact Or.inr ⟨rfl, le_refl _⟩
          · rw [if_neg hlen]
            rcases lt_or_eq_of_le (not_lt.mp hlen) with h1 | h1
            · exact Or.inl h1
            · exact Or.inr ⟨h1, hcross longest hmem seg
                (List.mem_cons_self seg rest')⟩
      · -- the new maximal end bounds the new group
        intro t ht
        rcases List.mem_append.mp ht with htg | hts
        · exact le_trans (hge t htg) (le_max_left _ _)
        · simp only [List.mem_singleton] at hts
          subst hts
          exact le_max_right _ _
      · -- a member attains the new maximal end
        rcases le_total groupEnd ((seg.endPos : Int)) with h1 | h1
        · exact ⟨seg,
            List.mem_append.mpr (Or.inr (List.mem_singleton_self seg)),
            (max_eq_right h1).symm⟩
        · exact ⟨m, List.mem_append.mpr (Or.inl hm),
            by rw [max_eq_left h1]; exact hme⟩
      · -- the new running best is connected to the whole new group
        intro t ht
        rcases List.mem_append.mp ht with htg | hts
        · by_cases hlen : longest.lenInt < seg.lenInt
          · rw [if_pos hlen]
            exact Relation.ReflTransGen.trans
              (connectedIn_symm hconn_l_seg) (hconn t htg)
          · rw [if_neg hlen]
            exact hconn t htg
        · simp only [List.mem_singleton] at hts
          rw [hts]
          by_cases hlen : longest.lenInt < seg.lenInt
          · rw [if_pos hlen]
            exact Relation.ReflTransGen.refl
          · rw [if_neg hlen]
            exact hconn_l_seg
      · exact (List.pairwise_cons.mp hsorted).2
      · -- starts of the new group precede the remaining starts
        intro g hg r hr
        rcases List.mem_append.mp hg with hgg | hgs
        · exact hcross g hgg r (List.mem_cons_of_mem seg hr)
        · simp only [List.mem_singleton] at hgs
          subst hgs
          exact (List.pairwise_cons.mp hsorted).1 r hr
      · exact hne
    · -- the open group closes and its best is emitted
      rw [if_neg hc]
      have hclose : groupEnd ≤ (seg.start : Int) := not_lt.mp hc
      have hsep : ∀ g ∈ grp, ∀ b ∈ seg :: rest', ¬ g.overlaps_with b := by
        intro g hg b hb hov
        have hbs : seg.start ≤ b.start := by
          rcases List.mem_cons.mp hb with rfl | hb'
          · exact le_refl _
          · exact (List.pairwise_cons.mp hsorted).1 b hb'
        have hgend : (g.endPos : Int) ≤ groupEnd := hge g hg
        have : g.endPos ≤ b.start := by
          have h1 : (g.endPos : Int) ≤ (seg.start : Int) :=
            le_trans hgend hclose
          have h2 : g.endPos ≤ seg.start := by exact_mod_cast h1
          omega
        exact absurd hov.2 (not_lt.mpr this)
      obtain ⟨c1, c2, c3, c4, c5⟩ := ih [seg] seg ((seg.endPos : Int))
        (List.mem_singleton_self seg)
        (by
          intro t ht
          simp only [List.mem_singleton] at ht
          subst ht
          exact Or.inr ⟨rfl, le_refl _⟩)
        (by
          intro t ht
          simp only [List.mem_singleton] at ht
          subst ht
          exact le_refl _)
        ⟨seg, List.mem_singleton_self seg, rfl⟩
        (by
          intro t ht
          simp only [List.mem_singleton] at ht
          subst ht
          exact Relation.ReflTransGen.refl)
        (List.pairwise_cons.mp hsorted).2
        (by
          intro g hg r hr
          simp only [List.mem_singleton] at hg
          subst hg
          exact (List.pairwise_cons.mp hsorted).1 r hr)
        (by
          intro x hx
          refine hne x (List.mem_append.mpr (Or.inr ?_))
          simpa using hx)
      have hsubB : ∀ s ∈ keepLongestLoop false seg ((seg.endPos : Int))
          rest', s ∈ seg :: rest' := by
        intro s hs
        have := c1 s hs
        simpa using this
      have hBL : ∀ x, x ∈ seg :: rest' → x ∈ grp ++ seg :: rest' :=
        fun x hx => List.mem_append.mpr (Or.inr hx)
      refine ⟨?_, ?_, ?_, ?_, ?_⟩
      · -- membership
        intro s hs
        rcases List.mem_cons.mp hs with rfl | hs'
        · exact List.mem_append.mpr (Or.inl hmem)
        · exact hBL s (hsubB s hs')
      · -- positional chain
        refine List.Pairwise.cons ?_ c2
        intro b hb
        have hbB := hsubB b hb
        have hbs : seg.start ≤ b.start := by
          rcases List.mem_cons.mp hbB with rfl | hb'
          · exact le_refl _
          · exact (List.pairwise_cons.mp hsorted).1 b hb'
        have h1 : (longest.endPos : Int) ≤ (seg.start : Int) :=
          le_trans (hge longest hmem) hclose
        have h2 : longest.endPos ≤ seg.start := by exact_mod_cast h1
        omega
      · -- each emitted segment is the best of its cluster
        intro s hs
        rcases List.mem_cons.mp hs with rfl | hs'
        · intro t ht hct
          obtain ⟨htg, _⟩ := connected_stay_left hsep hmem hct
          exact hbest t htg
        · intro t ht hct
          obtain ⟨htB, hcB⟩ :=
            connected_stay_right hsep (hsubB s hs') hct
          exact c3 s hs' t (by simpa using htB)
            (by
              refine connectedIn_mono ?_ hcB
              intro x hx
              simpa using hx)
      · -- every member's cluster has an emitted representative
        intro t ht
        rcases List.mem_append.mp ht with htg | htB
        · exact ⟨longest, List.mem_cons_self _ _,
            connectedIn_symm (hconn t htg)⟩
        · obtain ⟨s, hs, hcs⟩ := c4 t (by simpa using htB)
          refine ⟨s, List.mem_cons_of_mem _ hs, ?_⟩
          refine connectedIn_mono ?_ hcs
          intro x hx
          exact hBL x (by simpa using hx)
      · -- at most one representative per cluster
        intro s hs s' hs' hss'
        rcases List.mem_cons.mp hs with rfl | hso
        · rcases List.mem_cons.mp hs' with rfl | hso'
          · rfl
          · exfalso
            obtain ⟨hs'g, _⟩ := connected_stay_left hsep hmem hss'
            have hs'B := hsubB s' hso'
            have hs'ne : s'.start < s'.endPos := hne s' (hBL s' hs'B)
            exact hsep s' hs'g s' hs'B ⟨hs'ne, hs'ne⟩
        · rcases List.mem_cons.mp hs' with rfl | hso'
          · exfalso
            obtain ⟨hs'B, _⟩ :=
              connected_stay_right hsep (hsubB s hso) hss'
            have hs'ne : s'.start < s'.endPos :=
              hne s' (List.mem_append.mpr (Or.inl hmem))
            exact hsep s' hmem s' hs'B ⟨hs'ne, hs'ne⟩
          · obtain ⟨_, hcB⟩ :=
              connected_stay_right hsep (hsubB s hso) hss'
            refine c5 s hso s' hso' ?_
            refine connectedIn_mono ?_ hcB
            intro x hx
            simpa using hx

/-- C3, counterexample to the claim as stated: on the multiset
`{(2,6), (2,2)}` the zero-length segment `(2,2)` overlaps nothing — it is
its own maximal cluster and trivially its longest member — yet
`resolve_overlaps` with strategy `"longest"` groups it into `(2,6)`'s
sweep window (`start < group_end`) and drops it. -/
theorem C3_longest_drops_empty_singleton_cluster :
    (Segment.mk [] 2 2) ∈ [Segment.mk [] 2 6, Segment.mk [] 2 2] ∧
    bestOfCluster [Segment.mk [] 2 6, Segment.mk [] 2 2]
      (Segment.mk [] 2 2) ∧
    (Segment.mk [] 2 2) ∉
      resolve_overlaps [Segment.mk [] 2 6, Segment.mk [] 2 2]
        .longest false := by
  refine ⟨by decide, ?_, by decide⟩
  intro t ht hconn
  have hteq : t = Segment.mk [] 2 2 := by
    rcases Relation.ReflTransGen.cases_head hconn with heq | ⟨c, hstep, _⟩
    · exact heq.symm
    · exfalso
      rcases hstep with ⟨_, hcmem, hov⟩
      simp only [List.mem_cons, List.mem_singleton,
        List.not_mem_nil, or_false] at hcmem
      rcases hcmem with rfl | rfl
      · exact absurd hov (by decide)
      · exact absurd hov (by decide)
  rw [hteq]
  exact Or.inr ⟨rfl, le_refl _⟩

/-- C3 amended (the claim restricted to non-empty segments, which is the
only change the counterexample forces): for every finite multiset of
segments with `start < end`, `"longest"` resolution returns a
start-sorted, pairwise non-overlapping list of input segments in which
every maximal overlapping cluster of the input is represented by exactly
one survivor — its longest member, ties resolved to the earliest. -/
theorem C3_longest_resolution (l : List Segment)
    (hne : ∀ s ∈ l, s.start < s.endPos) :
    (∀ s ∈ resolve_overlaps l .longest false, s ∈ l) ∧
    List.Pairwise (fun a b => a.start ≤ b.start)
      (resolve_overlaps l .longest false) ∧
    List.Pairwise (fun a b => ¬ a.overlaps_with b)
      (resolve_overlaps l .longest false) ∧
    (∀ s ∈ resolve_overlaps l .longest false, bestOfCluster l s) ∧
    (∀ t ∈ l, ∃ s ∈ resolve_overlaps l .longest false,
      connectedIn l t s) ∧
    (∀ s ∈ resolve_overlaps l .longest false,
      ∀ s' ∈ resolve_overlaps l .longest false,
        connectedIn l s s' → s = s') := by
  have hperm : List.Perm (sortByStart l) l := by
    unfold sortByStart
    exact List.perm_insertionSort _ l
  have hmemiff : ∀ x : Segment, x ∈ sortByStart l ↔ x ∈ l :=
    fun x => hperm.mem_iff
  have hsorted : List.Sorted (fun a b : Segment => a.start ≤ b.start)
      (sortByStart l) := by
    unfold sortByStart
    haveI : IsTotal Segment fun a b : Segment => a.start ≤ b.start :=
      ⟨fun a b => le_total a.start b.start⟩
    haveI : IsTrans Segment fun a b : Segment => a.start ≤ b.start :=
      ⟨fun _ _ _ hab hbc => le_trans hab hbc⟩
    exact List.sorted_insertionSort _ _
  cases hs : sortByStart l with
  | nil =>
    have hlnil : l = [] := by
      rw [hs] at hperm
      exact (hperm.symm).eq_nil
    have hout : resolve_overlaps l .longest false = [] := by
      simp [resolve_overlaps, hs, _resolve_overlaps_keep_longest]
    rw [hout, hlnil]
    refine ⟨?_, List.Pairwise.nil, List.Pairwise.nil, ?_, ?_, ?_⟩
    · intro s hsm
      exact absurd hsm (List.not_mem_nil s)
    · intro s hsm
      exact absurd hsm (List.not_mem_nil s)
    · intro t htm
      exact absurd htm (List.not_mem_nil t)
    · intro s hsm
      exact absurd hsm (List.not_mem_nil s)
  | cons s1 rest =>
    rw [hs] at hsorted
    have hmemA : ∀ x : Segment, x ∈ [s1] ++ rest ↔ x ∈ l := by
      intro x
      have := hmemiff x
      rw [hs] at this
      exact this
    obtain ⟨c1, c2, c3, c4, c5⟩ :=
      keepLongest_master rest [s1] s1 ((s1.endPos : Int))
        (List.mem_singleton_self s1)
        (by
          intro t ht
          simp only [List.mem_singleton] at ht
          rw [ht]
          exact Or.inr ⟨rfl, le_refl _⟩)
        (by
          intro t ht
          simp only [List.mem_singleton] at ht
          rw [ht])
        ⟨s1, List.mem_singleton_self s1, rfl⟩
        (by
          intro t ht
          simp only [List.mem_singleton] at ht
          rw [ht]
          exact Relation.ReflTransGen.refl)
        (List.pairwise_cons.mp hsorted).2
        (by
          intro g hg r hr
          simp only [List.mem_singleton] at hg
          rw [hg]
          exact (List.pairwise_cons.mp hsorted).1 r hr)
        (by
          intro x hx
          exact hne x ((hmemA x).mp hx))
    have hout : resolve_overlaps l .longest false
        = keepLongestLoop false s1 ((s1.endPos : Int)) rest := by
      simp [resolve_overlaps, hs, _resolve_overlaps_keep_longest]
    rw [hout]
    refine ⟨?_, ?_, ?_, ?_, ?_, ?_⟩
    · intro s hsm
      exact (hmemA s).mp (c1 s hsm)
    · refine List.Pairwise.imp_of_mem ?_ c2
      intro a b ha _hb hab
      have haL : a ∈ l := (hmemA a).mp (c1 a ha)
      have := hne a haL
      omega
    · refine c2.imp ?_
      intro a b hab hov
      exact absurd hov.2 (not_lt.mpr hab)
    · intro s hsm
      exact (bestOfCluster_congr hmemA s).mp (c3 s hsm)
    · intro t htm
      obtain ⟨s, hsmem, hconn⟩ := c4 t ((hmemA t).mpr htm)
      exact ⟨s, hsmem, (connectedIn_congr hmemA t s).mp hconn⟩
    · intro s hsm s' hsm' hconn
      exact c5 s hsm s' hsm'
        ((connectedIn_congr hmemA s s').mpr hconn)

/-- Witness for the amended C3 on the docstring example
`{(0,5), (4,7), (6,10)}`. -/
theorem C3_longest_resolution_witness :
    (∀ s ∈ [Segment.mk [] 0 5, Segment.mk [] 4 7, Segment.mk [] 6 10],
      s.start < s.endPos) ∧
    (∀ s ∈ resolve_overlaps
        [Segment.mk [] 0 5, Segment.mk [] 4 7, Segment.mk [] 6 10]
        .longest false,
      bestOfCluster
        [Segment.mk [] 0 5, Segment.mk [] 4 7, Segment.mk [] 6 10] s) :=
  ⟨by decide,
   (C3_longest_resolution
     [Segment.mk [] 0 5, Segment.mk [] 4 7, Segment.mk [] 6 10]
     (by decide)).2.2.2.1⟩

end Momostack
